import Mathlib

/-!
Verification of the cross-table-lookup (CTL) engine and the recursive
composition pipeline of the zkm prover (`prover/src/cross_table_lookup.rs`,
`prover/src/fixed_recursive_verifier.rs`).

The Rust code is shallowly embedded over an arbitrary field `F`:

* `PolynomialValues<F>` becomes `List F`; a trace (column-major) becomes
  `List (List F)`; out-of-range reads that Rust would perform on data of the
  right shape use `List.getD` with default `0`.
* Code paths that can panic in Rust (`unwrap`, index out of bounds, the
  `todo!` arms, the `assert!` on non-binary filters, underflow on an empty
  trace) are modelled with `Option`: `none` is a panic.
* `F::batch_multiplicative_inverse` (a plonky2 primitive, external to this
  repository) is modelled as elementwise field inversion, which is its
  documented behaviour on the all-nonzero inputs the code feeds it.
* The plonky2 `CircuitBuilder` wire operations are external to the
  repository; as the claims compare the numeric values the built circuits
  compute, each builder operation is embedded as the field operation its
  wire computes (`mul_sub_extension a b c = a * b - c`, and so on).
-/

set_option linter.unusedSectionVars false

namespace Zkm

/-- Option-valued map over a list: `none` as soon as one element fails.
Models a Rust loop whose body can panic. -/
def omap (f : α → Option β) : List α → Option (List β)
  | [] => some []
  | a :: l =>
    match f a with
    | none => none
    | some b =>
      match omap f l with
      | none => none
      | some bs => some (b :: bs)

/-- Fuel-driven worker for `chunksOf` (structural recursion on the fuel so
that the kernel can evaluate it; `chunksOf` always supplies enough fuel). -/
def chunksOfFuel (n : Nat) : Nat → List α → List (List α)
  | 0, _ => []
  | _, [] => []
  | fuel + 1, a :: l =>
    match n with
    | 0 => []
    | m + 1 => (a :: l).take (m + 1) :: chunksOfFuel n fuel (l.drop m)

/-- Splits a list into consecutive chunks of size `n` (the last may be
shorter), as itertools' `chunks(n)`; `n = 0` (which panics in Rust) gives
no chunks. -/
def chunksOf (n : Nat) (l : List α) : List (List α) :=
  chunksOfFuel n l.length l

theorem chunksOfFuel_congr (n : Nat) :
    ∀ fuel fuel' (l : List α), l.length ≤ fuel → l.length ≤ fuel' →
      chunksOfFuel n fuel l = chunksOfFuel n fuel' l := by
  intro fuel
  induction fuel with
  | zero =>
    intro fuel' l h _
    have : l = [] := List.eq_nil_of_length_eq_zero (Nat.le_zero.mp h)
    subst this
    cases fuel' <;> rfl
  | succ fuel ih =>
    intro fuel' l h h'
    cases l with
    | nil => cases fuel' <;> rfl
    | cons a l =>
      cases fuel' with
      | zero => exact absurd h' (by simp)
      | succ fuel' =>
        cases n with
        | zero => rfl
        | succ m =>
          simp only [chunksOfFuel]
          congr 1
          apply ih
          · simp only [List.length_drop]
            simp only [List.length_cons] at h
            omega
          · simp only [List.length_drop]
            simp only [List.length_cons] at h'
            omega

theorem chunksOf_nil (n : Nat) : chunksOf n ([] : List α) = [] := by
  cases n <;> rfl

theorem chunksOf_zero (l : List α) : chunksOf 0 l = [] := by
  cases l <;> rfl

theorem chunksOf_cons (m : Nat) (a : α) (l : List α) :
    chunksOf (m + 1) (a :: l) = (a :: l).take (m + 1) :: chunksOf (m + 1) (l.drop m) := by
  show chunksOfFuel (m + 1) (l.length + 1) (a :: l) = _
  simp only [chunksOfFuel]
  congr 1
  exact chunksOfFuel_congr (m + 1) l.length (l.drop m).length (l.drop m)
    (by simp) (Nat.le_refl _)

/-- Ceiling division on naturals, as `plonky2_util::ceil_div_usize`. -/
def ceil_div_usize (a b : Nat) : Nat := (a + b - 1) / b

/-- Groups a list into maximal runs of consecutive elements sharing the same
key, as itertools' `group_by(key)`: each run is returned with its key. -/
def runsBy (key : α → Nat) : List α → List (Nat × List α)
  | [] => []
  | a :: rest =>
    match runsBy key rest with
    | [] => [(key a, [a])]
    | (k, g) :: gs =>
      if key a = k then (k, a :: g) :: gs else (key a, [a]) :: (k, g) :: gs

variable {F : Type} [Field F] [DecidableEq F]

/-- Represent a linear combination of columns (`Column<F>` of
`cross_table_lookup.rs`): coefficients over the current row, over the next
row, and a constant term. -/
structure Column (F : Type) where
  linear_combination : List (Nat × F)
  next_row_linear_combination : List (Nat × F)
  constant : F
deriving DecidableEq

/-- `Column::single`. -/
def Column.single (c : Nat) : Column F := ⟨[(c, 1)], [], 0⟩

/-- `Column::constant`. -/
def Column.constantCol (k : F) : Column F := ⟨[], [], k⟩

/-- `Column::zero`. -/
def Column.zero : Column F := Column.constantCol 0

/-- `Column::eval_table`: evaluate on row `row` of a column-major `table`.
Next-row terms are read only when `row` is not the last row (the code's
"next row at the last row yields 0" convention). -/
def Column.eval_table (col : Column F) (table : List (List F)) (row : Nat) : F :=
  let res := (col.linear_combination.map
      (fun p => (table.getD p.1 []).getD row 0 * p.2)).sum + col.constant
  if col.next_row_linear_combination ≠ [] ∧ row + 1 < (table.getD 0 []).length then
    res + (col.next_row_linear_combination.map
      (fun p => (table.getD p.1 []).getD (row + 1) 0 * p.2)).sum
  else res

/-- `Column::eval_with_next`: evaluate against opened local and next values. -/
def Column.eval_with_next (col : Column F) (v next_v : List F) : F :=
  (col.linear_combination.map (fun p => v.getD p.1 0 * p.2)).sum
    + (col.next_row_linear_combination.map (fun p => next_v.getD p.1 0 * p.2)).sum
    + col.constant

/-- Value computed by the wire that plonky2's `inner_product_extension`
builds: starting from `start`, fold `c * a * b + acc` over the pairs. -/
def inner_product_ext (c : F) (start : F) (pairs : List (F × F)) : F :=
  pairs.foldl (fun acc p => c * (p.1 * p.2) + acc) start

/-- `Column::eval_with_next_circuit`: the value of the wire built in-circuit
for the same evaluation (an inner product seeded with the constant term). -/
def Column.eval_with_next_circuit (col : Column F) (v next_v : List F) : F :=
  let pairs := col.linear_combination.map (fun p => (v.getD p.1 0, p.2))
    ++ col.next_row_linear_combination.map (fun p => (next_v.getD p.1 0, p.2))
  inner_product_ext 1 col.constant pairs

/-- A filter (`Filter<F>`): a sum of pairwise column products plus a sum of
single columns. -/
structure Filter (F : Type) where
  products : List (Column F × Column F)
  constants : List (Column F)
deriving DecidableEq

/-- `Filter::new_simple`. -/
def Filter.new_simple (col : Column F) : Filter F := ⟨[], [col]⟩

/-- `Filter::eval_table`: evaluate the filter on one row of a column-major
table. -/
def Filter.eval_table (flt : Filter F) (table : List (List F)) (row : Nat) : F :=
  (flt.products.map
      (fun pc => pc.1.eval_table table row * pc.2.eval_table table row)).sum
    + (flt.constants.map (fun c => c.eval_table table row)).sum

/-- `Filter::eval_filter`: evaluate the filter against opened values. -/
def Filter.eval_filter (flt : Filter F) (v next_v : List F) : F :=
  (flt.products.map
      (fun pc => pc.1.eval_with_next v next_v * pc.2.eval_with_next v next_v)).sum
    + (flt.constants.map (fun c => c.eval_with_next v next_v)).sum

/-- Value of the wire built by `builder.add_many_extension`. -/
def add_many_ext (l : List F) : F := l.foldl (· + ·) 0

/-- `Filter::eval_filter_circuit`: the value of the wire the circuit variant
builds (products and constants summed with `add_many_extension`, then added). -/
def Filter.eval_filter_circuit (flt : Filter F) (v next_v : List F) : F :=
  let prods := flt.products.map
    (fun pc => pc.1.eval_with_next_circuit v next_v * pc.2.eval_with_next_circuit v next_v)
  let consts := flt.constants.map (fun c => c.eval_with_next_circuit v next_v)
  add_many_ext prods + add_many_ext consts

/-- Evaluates an optional filter against opened values; an absent filter is
the constant 1 (the code's `P::ONES` default). -/
def filterOptEval (o : Option (Filter F)) (v next_v : List F) : F :=
  match o with
  | some flt => flt.eval_filter v next_v
  | none => 1

/-- Circuit variant of `filterOptEval` (default is `builder.one_extension()`). -/
def filterOptEvalCircuit (o : Option (Filter F)) (v next_v : List F) : F :=
  match o with
  | some flt => flt.eval_filter_circuit v next_v
  | none => 1

/-- `reduce_with_powers terms alpha = Σ terms[i]·alphaⁱ`, folded from the
last term as in plonky2. -/
def reduce_with_powers (terms : List F) (alpha : F) : F :=
  terms.foldr (fun t acc => acc * alpha + t) 0

/-- `GrandProductChallenge`: randomness `(beta, gamma)` combining a row's
values into one scalar. -/
structure GrandProductChallenge (F : Type) where
  beta : F
  gamma : F
deriving DecidableEq

/-- `GrandProductChallenge::combine`: `Σ beta^i·v_i + gamma`. -/
def GrandProductChallenge.combine (ch : GrandProductChallenge F) (terms : List F) : F :=
  reduce_with_powers terms ch.beta + ch.gamma

/-- `GrandProductChallenge::combine_circuit`: value of the wire built by
`reduce_with_powers_ext_circuit` followed by adding `gamma`. -/
def GrandProductChallenge.combine_circuit (ch : GrandProductChallenge F) (terms : List F) : F :=
  reduce_with_powers terms ch.beta + ch.gamma

/-- `TableWithColumns`: a table identifier (the `Table` enum embedded as a
`Nat`), the lookup's projected columns, and an optional filter. -/
structure TableWithColumns (F : Type) where
  table : Nat
  columns : List (Column F)
  filter : Option (Filter F)
deriving DecidableEq

/-- `CrossTableLookup`: one looked table plus the looking tables. -/
structure CrossTableLookup (F : Type) where
  looking_tables : List (TableWithColumns F)
  looked_table : TableWithColumns F
deriving DecidableEq

/-- One `(columns, filter)` pair (the `ColumnFilter` alias). -/
abbrev ColumnFilter (F : Type) := List (Column F) × Option (Filter F)

/-- Evaluates a pair's filter on a trace row; an absent filter is 1. -/
def filterEvalTable (filt : Option (Filter F)) (trace : List (List F)) (d : Nat) : F :=
  match filt with
  | some f => f.eval_table trace d
  | none => 1

/-- Evaluates a pair's columns on a trace row and combines them with the
challenge. -/
def combinedEvalTable (challenge : GrandProductChallenge F) (cols : List (Column F))
    (trace : List (List F)) (d : Nat) : F :=
  challenge.combine (cols.map (fun c => c.eval_table trace d))

/-- One row's entry of one pair's helper contribution in `get_helper_cols`:
filter 1 keeps the batch-inverted combined value, filter 0 is substituted by
a dummy 1 before inversion and forced to 0 after, anything else is the
"Non-binary filter?" panic. -/
def helperEntry (trace : List (List F)) (cf : ColumnFilter F)
    (challenge : GrandProductChallenge F) (d : Nat) : Option F :=
  let f := filterEvalTable cf.2 trace d
  if f = 1 then some (combinedEvalTable challenge cf.1 trace d)⁻¹
  else if f = 0 then some 0
  else none

/-- The full helper contribution column of one `(columns, filter)` pair. -/
def columnForPair (trace : List (List F)) (degree : Nat) (cf : ColumnFilter F)
    (challenge : GrandProductChallenge F) : Option (List F) :=
  omap (helperEntry trace cf challenge) (List.range degree)

/-- One helper column of `get_helper_cols`: the row-wise sum (plonky2's
`batch_add_inplace`) of the contribution columns of one chunk's pairs; the
empty chunk would be the code's `next().unwrap()` panic. -/
def chunkHelperColumn (trace : List (List F)) (degree : Nat)
    (challenge : GrandProductChallenge F) (chunk : List (ColumnFilter F)) :
    Option (List F) :=
  match chunk with
  | [] => none
  | first :: rest =>
    match columnForPair trace degree first challenge with
    | none => none
    | some acc =>
      match omap (fun cf => columnForPair trace degree cf challenge) rest with
      | none => none
      | some cols => some (cols.foldl (fun a c => a.zipWith (· + ·) c) acc)

/-- `get_helper_cols`: the helper polynomials for one lookup, one column per
chunk of `constraint_degree - 1` pairs. -/
def get_helper_cols (trace : List (List F)) (degree : Nat)
    (columns_filters : List (ColumnFilter F)) (challenge : GrandProductChallenge F)
    (constraint_degree : Nat) : Option (List (List F)) :=
  omap (chunkHelperColumn trace degree challenge)
    (chunksOf (constraint_degree - 1) columns_filters)

/-- The sum of all helper columns' values at one row
(`helper_columns.iter().map(|col| col.values[i]).sum()`). -/
def rowSum (helpers : List (List F)) (i : Nat) : F :=
  (helpers.map (fun col => col.getD i 0)).sum

/-- The `partial_sums` accumulation loop. Rust appends
`z[z.len()-1] + rowSum i` for `i = degree-2, …, 0` and finally reverses `z`;
prepending and reading the head builds the reversed list directly. -/
def zPush (helpers : List (List F)) (acc : List F) : Nat → List F
  | 0 => acc
  | i + 1 => zPush helpers ((acc.headD 0 + rowSum helpers i) :: acc) i

/-- The Z polynomial `partial_sums` computes from the helper columns. -/
def zBuild (helpers : List (List F)) (degree : Nat) : List F :=
  zPush helpers [rowSum helpers (degree - 1)] (degree - 1)

/-- `partial_sums`: the helper columns together with the reverse-cumulative
sum polynomial Z; with a single pair the vector is `[Z]` alone. An empty
trace column is the code's `values[degree - 1]` panic. -/
def partial_sums (trace : List (List F)) (columns_filters : List (ColumnFilter F))
    (challenge : GrandProductChallenge F) (constraint_degree : Nat) :
    Option (List (List F)) :=
  let degree := (trace.getD 0 []).length
  if degree = 0 then none
  else
    match get_helper_cols trace degree columns_filters challenge constraint_degree with
    | none => none
    | some helper_columns =>
      let z := zBuild helper_columns degree
      some (if columns_filters.length > 1 then helper_columns ++ [z] else [z])

theorem zPush_length (h : List (List F)) :
    ∀ (n : Nat) (acc : List F), (zPush h acc n).length = n + acc.length := by
  intro n
  induction n with
  | zero => intro acc; simp [zPush]
  | succ n ih =>
    intro acc
    simp only [zPush, ih, List.length_cons]
    omega

theorem zPush_getLast? (h : List (List F)) :
    ∀ (n : Nat) (acc : List F), acc ≠ [] →
      (zPush h acc n).getLast? = acc.getLast? := by
  intro n
  induction n with
  | zero => intro acc _; rfl
  | succ n ih =>
    intro acc hacc
    simp only [zPush]
    rw [ih _ (by simp)]
    cases acc with
    | nil => exact absurd rfl hacc
    | cons a l => exact List.getLast?_cons_cons

theorem zPush_headD (h : List (List F)) :
    ∀ (n : Nat) (acc : List F),
      (zPush h acc n).headD 0 = acc.headD 0 + ∑ i ∈ Finset.range n, rowSum h i := by
  intro n
  induction n with
  | zero => intro acc; simp [zPush]
  | succ n ih =>
    intro acc
    simp only [zPush, ih, List.headD_cons, Finset.sum_range_succ]
    ring

theorem headD_eq_getD (l : List F) : l.headD 0 = l.getD 0 0 := by
  cases l <;> rfl

theorem zPush_getD_step (h : List (List F)) :
    ∀ (n : Nat) (acc : List F), acc ≠ [] →
      (∀ j, j + 1 < acc.length → acc.getD j 0 = acc.getD (j + 1) 0 + rowSum h (n + j)) →
      ∀ j, j + 1 < n + acc.length →
        (zPush h acc n).getD j 0 = (zPush h acc n).getD (j + 1) 0 + rowSum h j := by
  intro n
  induction n with
  | zero =>
    intro acc _ hinv j hj
    simpa using hinv j (by omega)
  | succ n ih =>
    intro acc hacc hinv j hj
    simp only [zPush]
    apply ih ((acc.headD 0 + rowSum h n) :: acc) (by simp)
    · intro k hk
      match k with
      | 0 =>
        cases acc with
        | nil => exact absurd rfl hacc
        | cons a l => simp [List.getD_cons_zero, List.getD_cons_succ]
      | k + 1 =>
        simp only [List.length_cons] at hk
        have := hinv k (by omega)
        simp only [List.getD_cons_succ]
        rw [this]
        congr 2
        omega
    · simp only [List.length_cons] at hj ⊢
      omega

theorem zBuild_length (h : List (List F)) (degree : Nat) (hdeg : 1 ≤ degree) :
    (zBuild h degree).length = degree := by
  unfold zBuild
  rw [zPush_length]
  simp only [List.length_singleton]
  omega

theorem zBuild_getLast? (h : List (List F)) (degree : Nat) :
    (zBuild h degree).getLast? = some (rowSum h (degree - 1)) := by
  unfold zBuild
  rw [zPush_getLast? h _ _ (by simp)]
  exact List.getLast?_singleton _

theorem zBuild_headD (h : List (List F)) (degree : Nat) (hdeg : 1 ≤ degree) :
    (zBuild h degree).headD 0 = ∑ i ∈ Finset.range degree, rowSum h i := by
  obtain ⟨k, rfl⟩ : ∃ k, degree = k + 1 := ⟨degree - 1, by omega⟩
  unfold zBuild
  rw [zPush_headD]
  simp only [List.headD_cons, Nat.add_sub_cancel]
  rw [Finset.sum_range_succ]
  ring

theorem zBuild_step (h : List (List F)) (degree : Nat) :
    ∀ i, i + 1 < degree →
      (zBuild h degree).getD i 0 = (zBuild h degree).getD (i + 1) 0 + rowSum h i := by
  intro i hi
  unfold zBuild
  apply zPush_getD_step h (degree - 1) _ (by simp)
  · intro j hj
    simp only [List.length_singleton] at hj
    omega
  · simp only [List.length_singleton]
    omega

theorem zBuild_getD_last (h : List (List F)) (degree : Nat) (hdeg : 1 ≤ degree) :
    (zBuild h degree).getD (degree - 1) 0 = rowSum h (degree - 1) := by
  rw [List.getD_eq_getElem?_getD]
  have hlen : (zBuild h degree).length = degree := zBuild_length h degree hdeg
  have := zBuild_getLast? h degree
  rw [List.getLast?_eq_getElem?, hlen] at this
  rw [this]
  rfl

theorem omap_length {f : α → Option β} :
    ∀ {l : List α} {ys : List β}, omap f l = some ys → ys.length = l.length := by
  intro l
  induction l with
  | nil => intro ys h; simp only [omap] at h; cases h; rfl
  | cons a l ih =>
    intro ys h
    simp only [omap] at h
    cases hfa : f a with
    | none => rw [hfa] at h; exact absurd h (by simp)
    | some b =>
      rw [hfa] at h
      cases hrest : omap f l with
      | none => rw [hrest] at h; exact absurd h (by simp)
      | some bs =>
        rw [hrest] at h
        cases h
        simp [ih hrest]

theorem omap_getElem? {f : α → Option β} :
    ∀ {l : List α} {ys : List β}, omap f l = some ys → ∀ j : Nat, ys[j]? = l[j]?.bind f := by
  intro l
  induction l with
  | nil => intro ys h j; simp only [omap] at h; cases h; simp
  | cons a l ih =>
    intro ys h j
    simp only [omap] at h
    cases hfa : f a with
    | none => rw [hfa] at h; exact absurd h (by simp)
    | some b =>
      rw [hfa] at h
      cases hrest : omap f l with
      | none => rw [hrest] at h; exact absurd h (by simp)
      | some bs =>
        rw [hrest] at h
        cases h
        match j with
        | 0 => simpa using hfa.symm
        | j + 1 => simpa using ih hrest j

theorem omap_map {f : α → Option β} {g : α → β} :
    ∀ {l : List α}, (∀ a ∈ l, f a = some (g a)) → omap f l = some (l.map g) := by
  intro l
  induction l with
  | nil => intro _; rfl
  | cons a l ih =>
    intro hall
    simp only [omap, hall a (by simp), ih (fun x hx => hall x (by simp [hx])), List.map_cons]

theorem omap_eq_none {f : α → Option β} {a : α} :
    ∀ {l : List α}, a ∈ l → f a = none → omap f l = none := by
  intro l
  induction l with
  | nil => intro h; exact absurd h (by simp)
  | cons b l ih =>
    intro hmem hfa
    simp only [omap]
    rcases List.mem_cons.mp hmem with h | h
    · subst h; rw [hfa]
    · cases hfb : f b with
      | none => rfl
      | some c => rw [ih h hfa]

theorem omap_congr {f g : α → Option β} :
    ∀ {l : List α}, (∀ a ∈ l, f a = g a) → omap f l = omap g l := by
  intro l
  induction l with
  | nil => intro _; rfl
  | cons a l ih =>
    intro hall
    simp only [omap, hall a (by simp), ih (fun x hx => hall x (by simp [hx]))]

theorem partial_sums_some {trace : List (List F)} {cfs : List (ColumnFilter F)}
    {ch : GrandProductChallenge F} {cd : Nat} {hz : List (List F)}
    (h : partial_sums trace cfs ch cd = some hz) :
    1 ≤ (trace.getD 0 []).length ∧
    ∃ helpers, get_helper_cols trace (trace.getD 0 []).length cfs ch cd = some helpers ∧
      hz = if cfs.length > 1 then
              helpers ++ [zBuild helpers (trace.getD 0 []).length]
            else [zBuild helpers (trace.getD 0 []).length] := by
  unfold partial_sums at h
  by_cases hdeg : (trace.getD 0 []).length = 0
  · simp only [hdeg, if_pos rfl] at h
    exact absurd h (by simp)
  · simp only [if_neg hdeg] at h
    cases hhc : get_helper_cols trace (trace.getD 0 []).length cfs ch cd with
    | none => rw [hhc] at h; exact absurd h (by simp)
    | some helpers =>
      rw [hhc] at h
      cases h
      exact ⟨by omega, helpers, rfl, rfl⟩

/-- C1: for every trace, non-empty list of (columns, filter) pairs and
challenge on which `partial_sums` succeeds, the Z polynomial it computes and
the helper columns it is built from satisfy the checker's identities: Z at
the last row equals the sum of the helper columns at the last row, and for
every row `i` before the last, `Z[i] - Z[i+1]` equals the sum of the helper
columns at row `i` — so reconstructing Z from the helper columns through the
boundary and transition identities reproduces exactly the Z that
`partial_sums` emits (for a single pair the lone helper column is folded
into Z itself, which the emitted vector `[Z]` reflects). -/
theorem partial_sums_helper_z_roundtrip
    (trace : List (List F)) (cfs : List (ColumnFilter F))
    (ch : GrandProductChallenge F) (cd : Nat) (hz helpers : List (List F))
    (hne : cfs ≠ [])
    (hhc : get_helper_cols trace (trace.getD 0 []).length cfs ch cd = some helpers)
    (hps : partial_sums trace cfs ch cd = some hz) :
    ∃ z, hz = (if cfs.length > 1 then helpers ++ [z] else [z]) ∧
      z.getD ((trace.getD 0 []).length - 1) 0
        = rowSum helpers ((trace.getD 0 []).length - 1) ∧
      ∀ i, i + 1 < (trace.getD 0 []).length →
        z.getD i 0 - z.getD (i + 1) 0 = rowSum helpers i := by
  obtain ⟨hdeg, helpers', hhc', hform⟩ := partial_sums_some hps
  rw [hhc] at hhc'
  cases hhc'
  refine ⟨zBuild helpers (trace.getD 0 []).length, hform, ?_, ?_⟩
  · exact zBuild_getD_last helpers _ hdeg
  · intro i hi
    rw [zBuild_step helpers _ i hi]
    ring

/-- C2: on every trace (of nonzero degree) and non-empty pair list on which
it succeeds, `partial_sums` returns as its last polynomial a Z of length
`degree` with `Z[degree-1]` equal to the sum of all helper columns at the
last row, `Z[i] = Z[i+1] +` (sum of all helper columns at row `i`) walking
rows backward, and the grand total at index 0; with exactly one pair the
returned vector is `[Z]` alone, with no separate helper columns. -/
theorem partial_sums_last_poly_z
    (trace : List (List F)) (cfs : List (ColumnFilter F))
    (ch : GrandProductChallenge F) (cd : Nat) (hz helpers : List (List F))
    (hne : cfs ≠ [])
    (hhc : get_helper_cols trace (trace.getD 0 []).length cfs ch cd = some helpers)
    (hps : partial_sums trace cfs ch cd = some hz) :
    ∃ z, hz.getLast? = some z ∧ z.length = (trace.getD 0 []).length ∧
      z.getD ((trace.getD 0 []).length - 1) 0
        = rowSum helpers ((trace.getD 0 []).length - 1) ∧
      (∀ i, i + 1 < (trace.getD 0 []).length →
        z.getD i 0 = z.getD (i + 1) 0 + rowSum helpers i) ∧
      z.getD 0 0 = ∑ i ∈ Finset.range (trace.getD 0 []).length, rowSum helpers i ∧
      (cfs.length = 1 → hz = [z]) := by
  obtain ⟨hdeg, helpers', hhc', hform⟩ := partial_sums_some hps
  rw [hhc] at hhc'
  cases hhc'
  set degree := (trace.getD 0 []).length with hdegdef
  refine ⟨zBuild helpers degree, ?_, zBuild_length helpers degree hdeg,
    zBuild_getD_last helpers degree hdeg, zBuild_step helpers degree, ?_, ?_⟩
  · rw [hform]
    by_cases hlen : cfs.length > 1
    · rw [if_pos hlen]
      exact List.getLast?_concat _
    · rw [if_neg hlen]
      exact List.getLast?_singleton _
  · rw [← headD_eq_getD]
    exact zBuild_headD helpers degree hdeg
  · intro h1
    rw [hform, if_neg (by omega)]

instance : Fact (Nat.Prime 5) := ⟨by norm_num⟩

/-- Concrete two-row, one-column trace over `ZMod 5` for witnesses. -/
def exTrace : List (List (ZMod 5)) := [[0, 0]]

/-- Concrete (columns, filter) pair whose filter evaluates to 0 on every row
of `exTrace`. -/
def exCF : ColumnFilter (ZMod 5) :=
  ([Column.single 0], some (Filter.new_simple (Column.single 0)))

/-- Concrete challenge for witnesses. -/
def exCh : GrandProductChallenge (ZMod 5) := ⟨0, 1⟩

theorem partial_sums_helper_z_roundtrip_witness :
    ([exCF] : List (ColumnFilter (ZMod 5))) ≠ [] ∧
    get_helper_cols exTrace (exTrace.getD 0 []).length [exCF] exCh 3 = some [[0, 0]] ∧
    partial_sums exTrace [exCF] exCh 3 = some [[0, 0]] ∧
    (∃ z, ([[0, 0]] : List (List (ZMod 5)))
        = (if ([exCF] : List (ColumnFilter (ZMod 5))).length > 1 then [[0, 0]] ++ [z] else [z]) ∧
      z.getD ((exTrace.getD 0 []).length - 1) 0
        = rowSum [[0, 0]] ((exTrace.getD 0 []).length - 1) ∧
      ∀ i, i + 1 < (exTrace.getD 0 []).length →
        z.getD i 0 - z.getD (i + 1) 0 = rowSum [[0, 0]] i) :=
  ⟨by decide, by decide, by decide,
    partial_sums_helper_z_roundtrip exTrace [exCF] exCh 3 [[0, 0]] [[0, 0]]
      (by decide) (by decide) (by decide)⟩

theorem partial_sums_last_poly_z_witness :
    ([exCF] : List (ColumnFilter (ZMod 5))) ≠ [] ∧
    get_helper_cols exTrace (exTrace.getD 0 []).length [exCF] exCh 3 = some [[0, 0]] ∧
    partial_sums exTrace [exCF] exCh 3 = some [[0, 0]] ∧
    (∃ z, ([[0, 0]] : List (List (ZMod 5))).getLast? = some z ∧
      z.length = (exTrace.getD 0 []).length ∧
      z.getD ((exTrace.getD 0 []).length - 1) 0
        = rowSum [[0, 0]] ((exTrace.getD 0 []).length - 1) ∧
      (∀ i, i + 1 < (exTrace.getD 0 []).length →
        z.getD i 0 = z.getD (i + 1) 0 + rowSum [[0, 0]] i) ∧
      z.getD 0 0 = ∑ i ∈ Finset.range (exTrace.getD 0 []).length, rowSum [[0, 0]] i ∧
      (([exCF] : List (ColumnFilter (ZMod 5))).length = 1 → ([[0, 0]] : List (List (ZMod 5))) = [z])) :=
  ⟨by decide, by decide, by decide,
    partial_sums_last_poly_z exTrace [exCF] exCh 3 [[0, 0]] [[0, 0]]
      (by decide) (by decide) (by decide)⟩

/-- Value of the wire built by `builder.mul_sub_extension a b c`. -/
def mul_sub_ext (a b c : F) : F := a * b - c

/-- Value of the wire built by
`builder.arithmetic_extension c0 c1 a b d = c0·a·b + c1·d`. -/
def arithmetic_ext (c0 c1 a b d : F) : F := c0 * (a * b) + c1 * d

/-- Modelled from the spec: the constraint accumulator shared across all
checks of a row (`ConstraintConsumer` and `RecursiveConstraintConsumer` live
outside this repository). The spec says the checker "pushes constraints into
a constraint accumulator"; the three kinds of pushes are kept as three
ordered lists. -/
structure Consumer (F : Type) where
  cs : List F
  lastRow : List F
  transition : List F
deriving DecidableEq

/-- One chunk's constraint in `eval_helper_columns`: `jc` is the enumerated
`(j, chunk)`. Out-of-range slicing of `filter`, a missing helper column and
the `todo!` arm for chunks of three or more groups are all `none` (panics). -/
def helperChunkConstraint (ch : GrandProductChallenge F)
    (filter : List (Option (Filter F))) (lv nv : List F) (helpers : List F)
    (cd : Nat) (jc : Nat × List (List F)) : Option F :=
  if (cd - 1) * jc.1 + jc.2.length ≤ filter.length then
    match helpers[jc.1]? with
    | none => none
    | some h =>
      let fs := (filter.drop ((cd - 1) * jc.1)).take jc.2.length
      match jc.2 with
      | [c0, c1] =>
        let combin0 := ch.combine c0
        let combin1 := ch.combine c1
        let f0 := filterOptEval (fs.getD 0 none) lv nv
        let f1 := filterOptEval (fs.getD 1 none) lv nv
        some (combin1 * combin0 * h - f0 * combin1 - f1 * combin0)
      | [c0] =>
        let combin := ch.combine c0
        let f0 := filterOptEval (fs.getD 0 none) lv nv
        some (combin * h - f0)
      | _ => none
  else none

/-- `eval_helper_columns`: the ordered constraints the native checker pushes
for the helper columns (none when the helper-column list is empty). -/
def eval_helper_columns (filter : List (Option (Filter F))) (columns : List (List F))
    (lv nv : List F) (helpers : List F) (cd : Nat) (ch : GrandProductChallenge F) :
    Option (List F) :=
  if helpers.isEmpty then some []
  else omap (helperChunkConstraint ch filter lv nv helpers cd)
    (chunksOf (cd - 1) columns).enum

/-- Circuit counterpart of `helperChunkConstraint`, following
`eval_helper_columns_circuit`'s wire construction
(`mul_sub_extension`, `mul_extension`, `sub_extension`). -/
def helperChunkConstraintCircuit (ch : GrandProductChallenge F)
    (filter : List (Option (Filter F))) (lv nv : List F) (helpers : List F)
    (cd : Nat) (jc : Nat × List (List F)) : Option F :=
  if (cd - 1) * jc.1 + jc.2.length ≤ filter.length then
    match helpers[jc.1]? with
    | none => none
    | some h =>
      let fs := (filter.drop ((cd - 1) * jc.1)).take jc.2.length
      match jc.2 with
      | [c0, c1] =>
        let combin0 := ch.combine_circuit c0
        let combin1 := ch.combine_circuit c1
        let f0 := filterOptEvalCircuit (fs.getD 0 none) lv nv
        let f1 := filterOptEvalCircuit (fs.getD 1 none) lv nv
        let constr := mul_sub_ext combin0 h f0
        let constr2 := constr * combin1
        let f1_constr := f1 * combin0
        some (constr2 - f1_constr)
      | [c0] =>
        let combin := ch.combine_circuit c0
        let f0 := filterOptEvalCircuit (fs.getD 0 none) lv nv
        some (mul_sub_ext combin h f0)
      | _ => none
  else none

/-- `eval_helper_columns_circuit`: the values of the constraint wires the
circuit checker builds. -/
def eval_helper_columns_circuit (filter : List (Option (Filter F)))
    (columns : List (List F)) (lv nv : List F) (helpers : List F) (cd : Nat)
    (ch : GrandProductChallenge F) : Option (List F) :=
  if helpers.isEmpty then some []
  else omap (helperChunkConstraintCircuit ch filter lv nv helpers cd)
    (chunksOf (cd - 1) columns).enum

/-- `CtlCheckVars`: per-row opening values needed to re-check one lookup. -/
structure CtlCheckVars (F : Type) where
  helper_columns : List F
  local_z : F
  next_z : F
  challenges : GrandProductChallenge F
  columns : List (List (Column F))
  filter : List (Option (Filter F))

/-- The constraints `eval_cross_table_lookup_checks` pushes for one lookup's
check variables. -/
def evalCtlCheckOne (lv nv : List F) (cd : Nat) (l : CtlCheckVars F) :
    Option (Consumer F) :=
  let evals := l.columns.map (fun col => col.map (fun c => c.eval_with_next lv nv))
  match eval_helper_columns l.filter evals lv nv l.helper_columns cd l.challenges with
  | none => none
  | some cs =>
    if l.helper_columns.isEmpty = false then
      let h_sum := l.helper_columns.foldl (· + ·) 0
      some ⟨cs, [l.local_z - h_sum], [l.local_z - l.next_z - h_sum]⟩
    else if l.columns.length > 1 then
      let combin0 := l.challenges.combine (evals.getD 0 [])
      let combin1 := l.challenges.combine (evals.getD 1 [])
      let f0 := filterOptEval (l.filter.getD 0 none) lv nv
      let f1 := filterOptEval (l.filter.getD 1 none) lv nv
      some ⟨cs, [combin0 * combin1 * l.local_z - f0 * combin1 - f1 * combin0],
        [combin0 * combin1 * (l.local_z - l.next_z) - f0 * combin1 - f1 * combin0]⟩
    else
      let combin0 := l.challenges.combine (evals.getD 0 [])
      let f0 := filterOptEval (l.filter.getD 0 none) lv nv
      some ⟨cs, [combin0 * l.local_z - f0], [combin0 * (l.local_z - l.next_z) - f0]⟩

/-- The constraint wires `eval_cross_table_lookup_checks_circuit` builds for
one lookup's check variables. -/
def evalCtlCheckOneCircuit (lv nv : List F) (cd : Nat) (l : CtlCheckVars F) :
    Option (Consumer F) :=
  let evals := l.columns.map (fun col => col.map (fun c => c.eval_with_next_circuit lv nv))
  match eval_helper_columns_circuit l.filter evals lv nv l.helper_columns cd l.challenges with
  | none => none
  | some cs =>
    let z_diff := l.local_z - l.next_z
    if l.helper_columns.isEmpty = false then
      let h_sum := add_many_ext l.helper_columns
      some ⟨cs, [l.local_z - h_sum], [z_diff - h_sum]⟩
    else if l.columns.length > 1 then
      let combin0 := l.challenges.combine_circuit (evals.getD 0 [])
      let combin1 := l.challenges.combine_circuit (evals.getD 1 [])
      let f0 := filterOptEvalCircuit (l.filter.getD 0 none) lv nv
      let f1 := filterOptEvalCircuit (l.filter.getD 1 none) lv nv
      let combined := (mul_sub_ext combin1 l.local_z f1) * combin0
      let combinedT := (mul_sub_ext combin1 z_diff f1) * combin0
      some ⟨cs, [arithmetic_ext (-1) 1 f0 combin1 combined],
        [arithmetic_ext (-1) 1 f0 combin1 combinedT]⟩
    else
      let combin0 := l.challenges.combine_circuit (evals.getD 0 [])
      let f0 := filterOptEvalCircuit (l.filter.getD 0 none) lv nv
      some ⟨cs, [mul_sub_ext combin0 l.local_z f0], [mul_sub_ext combin0 z_diff f0]⟩

/-- `eval_cross_table_lookup_checks`: all constraints pushed for a list of
lookups, in push order per accumulator bucket. -/
def eval_cross_table_lookup_checks (lv nv : List F) (ctl_vars : List (CtlCheckVars F))
    (cd : Nat) : Option (Consumer F) :=
  match omap (evalCtlCheckOne lv nv cd) ctl_vars with
  | none => none
  | some ls => some ⟨(ls.map (·.cs)).flatten, (ls.map (·.lastRow)).flatten,
      (ls.map (·.transition)).flatten⟩

/-- `eval_cross_table_lookup_checks_circuit`: the values of all constraint
wires built for a list of lookups. -/
def eval_cross_table_lookup_checks_circuit (lv nv : List F)
    (ctl_vars : List (CtlCheckVars F)) (cd : Nat) : Option (Consumer F) :=
  match omap (evalCtlCheckOneCircuit lv nv cd) ctl_vars with
  | none => none
  | some ls => some ⟨(ls.map (·.cs)).flatten, (ls.map (·.lastRow)).flatten,
      (ls.map (·.transition)).flatten⟩

theorem foldl_add_eq_sum : ∀ (l : List F) (s : F), l.foldl (· + ·) s = s + l.sum := by
  intro l
  induction l with
  | nil => intro s; simp
  | cons a l ih =>
    intro s
    simp only [List.foldl_cons, List.sum_cons, ih]
    ring

theorem add_many_ext_eq_sum (l : List F) : add_many_ext l = l.sum := by
  unfold add_many_ext
  rw [foldl_add_eq_sum]
  ring

theorem inner_product_ext_one :
    ∀ (pairs : List (F × F)) (s : F),
      inner_product_ext 1 s pairs = (pairs.map (fun p => p.1 * p.2)).sum + s := by
  intro pairs
  induction pairs with
  | nil => intro s; simp [inner_product_ext]
  | cons p l ih =>
    intro s
    simp only [inner_product_ext, List.foldl_cons] at ih ⊢
    rw [ih]
    simp only [List.map_cons, List.sum_cons]
    ring

theorem eval_with_next_circuit_eq (col : Column F) (v next_v : List F) :
    col.eval_with_next_circuit v next_v = col.eval_with_next v next_v := by
  unfold Column.eval_with_next_circuit Column.eval_with_next
  rw [inner_product_ext_one]
  simp only [List.map_append, List.sum_append, List.map_map]
  rfl

theorem eval_filter_circuit_eq (flt : Filter F) (v next_v : List F) :
    flt.eval_filter_circuit v next_v = flt.eval_filter v next_v := by
  unfold Filter.eval_filter_circuit Filter.eval_filter
  dsimp only
  rw [add_many_ext_eq_sum, add_many_ext_eq_sum]
  congr 1
  · congr 1
    apply List.map_congr_left
    intro pc _
    rw [eval_with_next_circuit_eq, eval_with_next_circuit_eq]
  · congr 1
    apply List.map_congr_left
    intro c _
    rw [eval_with_next_circuit_eq]

theorem filterOptEvalCircuit_eq (o : Option (Filter F)) (v next_v : List F) :
    filterOptEvalCircuit o v next_v = filterOptEval o v next_v := by
  cases o with
  | none => rfl
  | some flt => exact eval_filter_circuit_eq flt v next_v

theorem combine_circuit_eq (ch : GrandProductChallenge F) (terms : List F) :
    ch.combine_circuit terms = ch.combine terms := rfl

theorem helperChunkConstraintCircuit_eq (ch : GrandProductChallenge F)
    (filter : List (Option (Filter F))) (lv nv : List F) (helpers : List F)
    (cd : Nat) (jc : Nat × List (List F)) :
    helperChunkConstraintCircuit ch filter lv nv helpers cd jc
      = helperChunkConstraint ch filter lv nv helpers cd jc := by
  unfold helperChunkConstraintCircuit helperChunkConstraint
  by_cases hb : (cd - 1) * jc.1 + jc.2.length ≤ filter.length
  · simp only [if_pos hb]
    cases helpers[jc.1]? with
    | none => rfl
    | some h =>
      match hc : jc.2 with
      | [] => rfl
      | [c0] =>
        simp only [filterOptEvalCircuit_eq, combine_circuit_eq]
        rfl
      | [c0, c1] =>
        simp only [filterOptEvalCircuit_eq, combine_circuit_eq]
        congr 1
        unfold mul_sub_ext
        ring
      | _ :: _ :: _ :: _ => rfl
  · simp only [if_neg hb]

theorem eval_helper_columns_circuit_eq (filter : List (Option (Filter F)))
    (columns : List (List F)) (lv nv : List F) (helpers : List F) (cd : Nat)
    (ch : GrandProductChallenge F) :
    eval_helper_columns_circuit filter columns lv nv helpers cd ch
      = eval_helper_columns filter columns lv nv helpers cd ch := by
  unfold eval_helper_columns_circuit eval_helper_columns
  by_cases he : helpers.isEmpty
  · simp [he]
  · simp only [if_neg he]
    apply omap_congr
    intro jc _
    exact helperChunkConstraintCircuit_eq ch filter lv nv helpers cd jc

theorem evalCtlCheckOneCircuit_eq (lv nv : List F) (cd : Nat) (l : CtlCheckVars F) :
    evalCtlCheckOneCircuit lv nv cd l = evalCtlCheckOne lv nv cd l := by
  unfold evalCtlCheckOneCircuit evalCtlCheckOne
  dsimp only
  have hevals : l.columns.map (fun col => col.map (fun c => c.eval_with_next_circuit lv nv))
      = l.columns.map (fun col => col.map (fun c => c.eval_with_next lv nv)) := by
    apply List.map_congr_left
    intro col _
    apply List.map_congr_left
    intro c _
    exact eval_with_next_circuit_eq c lv nv
  rw [hevals, eval_helper_columns_circuit_eq]
  cases eval_helper_columns l.filter
      (l.columns.map (fun col => col.map (fun c => c.eval_with_next lv nv)))
      lv nv l.helper_columns cd l.challenges with
  | none => rfl
  | some cs =>
    dsimp only
    by_cases hh : l.helper_columns.isEmpty = false
    · rw [if_pos hh, if_pos hh, add_many_ext_eq_sum]
      have : l.helper_columns.foldl (· + ·) 0 = l.helper_columns.sum := by
        rw [foldl_add_eq_sum]; ring
      rw [this]
    · rw [if_neg hh, if_neg hh]
      by_cases hcols : l.columns.length > 1
      · simp only [if_pos hcols, filterOptEvalCircuit_eq, combine_circuit_eq]
        congr 2
        · congr 1
          unfold arithmetic_ext mul_sub_ext
          ring
        · congr 1
          unfold arithmetic_ext mul_sub_ext
          ring
      · simp only [if_neg hcols, filterOptEvalCircuit_eq, combine_circuit_eq]
        rfl

/-- C4: the circuit variant of the CTL constraint checker produces
constraints numerically identical to the native variant: evaluating the wire
expressions built by `eval_cross_table_lookup_checks_circuit` (including
`eval_helper_columns_circuit`) at any concrete values yields exactly the same
constraint values, in the same order and accumulator buckets, as
`eval_cross_table_lookup_checks` (including `eval_helper_columns`). -/
theorem ctl_checks_circuit_eq_native (lv nv : List F)
    (ctl_vars : List (CtlCheckVars F)) (cd : Nat) :
    eval_cross_table_lookup_checks_circuit lv nv ctl_vars cd
      = eval_cross_table_lookup_checks lv nv ctl_vars cd := by
  unfold eval_cross_table_lookup_checks_circuit eval_cross_table_lookup_checks
  rw [omap_congr (fun l _ => evalCtlCheckOneCircuit_eq lv nv cd l)]

theorem omap_forall_some {f : α → Option β} :
    ∀ {l : List α} {ys : List β}, omap f l = some ys → ∀ a ∈ l, ∃ b, f a = some b := by
  intro l
  induction l with
  | nil => intro ys _ a ha; exact absurd ha (by simp)
  | cons x l ih =>
    intro ys h a ha
    simp only [omap] at h
    cases hfx : f x with
    | none => rw [hfx] at h; exact absurd h (by simp)
    | some b =>
      rw [hfx] at h
      cases hrest : omap f l with
      | none => rw [hrest] at h; exact absurd h (by simp)
      | some bs =>
        rcases List.mem_cons.mp ha with rfl | ha'
        · exact ⟨b, hfx⟩
        · exact ih hrest a ha'

theorem chunksOf_flatten (m : Nat) :
    ∀ (l : List α), (chunksOf (m + 1) l).flatten = l := by
  intro l
  match l with
  | [] => rw [chunksOf_nil]; rfl
  | a :: l =>
    rw [chunksOf_cons]
    have ih := chunksOf_flatten m (l.drop m)
    simp only [List.flatten_cons, ih, List.take_cons_succ]
    exact congrArg (a :: ·) (List.take_append_drop m l)
termination_by l => l.length
decreasing_by
  simp only [List.length_drop, List.length_cons]
  omega

theorem length_le_of_mem_chunksOf (m : Nat) :
    ∀ (l : List α) (c : List α), c ∈ chunksOf (m + 1) l → c.length ≤ m + 1 := by
  intro l
  match l with
  | [] => intro c hc; rw [chunksOf_nil] at hc; exact absurd hc (by simp)
  | a :: l =>
    intro c hc
    rw [chunksOf_cons] at hc
    rcases List.mem_cons.mp hc with rfl | hc'
    · simpa using List.length_take_le (m + 1) (a :: l)
    · exact length_le_of_mem_chunksOf m (l.drop m) c hc'
termination_by l => l.length
decreasing_by
  simp only [List.length_drop, List.length_cons]
  omega

/-- C3: with a non-empty helper-column list, the native checker's `j`-th
pushed constraint is, for a chunk of two opened column groups,
`combine(v0)·combine(v1)·h − f0·combine(v1) − f1·combine(v0)` and, for a
chunk of one group, `combine(v0)·h − f0`, where `f_k` is the evaluation of
the chunk's `k`-th filter (1 when absent) and `h` the chunk's helper-column
opening. -/
theorem eval_helper_columns_chunk_identities (ch : GrandProductChallenge F)
    (filter : List (Option (Filter F))) (columns : List (List F))
    (lv nv : List F) (helpers : List F) (cd : Nat) (cs : List F)
    (hne : helpers ≠ [])
    (h : eval_helper_columns filter columns lv nv helpers cd ch = some cs)
    (j : Nat) (chunk : List (List F))
    (hchunk : (chunksOf (cd - 1) columns)[j]? = some chunk) :
    (chunk.length = 2 → cs[j]? = some
      (ch.combine (chunk.getD 0 []) * ch.combine (chunk.getD 1 []) * helpers.getD j 0
        - filterOptEval (filter.getD ((cd - 1) * j) none) lv nv * ch.combine (chunk.getD 1 [])
        - filterOptEval (filter.getD ((cd - 1) * j + 1) none) lv nv * ch.combine (chunk.getD 0 []))) ∧
    (chunk.length = 1 → cs[j]? = some
      (ch.combine (chunk.getD 0 []) * helpers.getD j 0
        - filterOptEval (filter.getD ((cd - 1) * j) none) lv nv)) := by
  have hie : helpers.isEmpty = false := by
    cases helpers with
    | nil => exact absurd rfl hne
    | cons a l => rfl
  unfold eval_helper_columns at h
  rw [hie] at h
  simp only [Bool.false_eq_true, if_false] at h
  have hjc : (chunksOf (cd - 1) columns).enum[j]? = some (j, chunk) := by
    rw [List.getElem?_enum, hchunk]
    rfl
  have hcs := omap_getElem? h j
  rw [hjc] at hcs
  simp only [Option.some_bind] at hcs
  obtain ⟨b, hb⟩ := omap_forall_some h (j, chunk) (List.getElem?_mem hjc)
  unfold helperChunkConstraint at hcs hb
  by_cases hbound : (cd - 1) * j + chunk.length ≤ filter.length
  · simp only [if_pos hbound] at hcs hb
    cases hh : helpers[j]? with
    | none => rw [hh] at hb; exact absurd hb (by simp)
    | some hcol =>
      rw [hh] at hcs
      have hcolD : helpers.getD j 0 = hcol := by
        rw [List.getD_eq_getElem?_getD, hh]
        rfl
      have hfs : ∀ k, k < chunk.length →
          ((filter.drop ((cd - 1) * j)).take chunk.length).getD k none
            = filter.getD ((cd - 1) * j + k) none := by
        intro k hk
        rw [List.getD_eq_getElem?_getD, List.getD_eq_getElem?_getD,
          List.getElem?_take, if_pos hk, List.getElem?_drop]
      constructor
      · intro hlen
        obtain ⟨c0, c1, rfl⟩ : ∃ c0 c1, chunk = [c0, c1] := by
          match chunk, hlen with
          | [c0, c1], _ => exact ⟨c0, c1, rfl⟩
        dsimp only at hcs
        rw [hcs, hfs 0 (by simp), hfs 1 (by simp)]
        simp only [Nat.add_zero, List.getD_cons_zero, List.getD_cons_succ, hcolD]
        congr 1
        ring
      · intro hlen
        obtain ⟨c0, rfl⟩ : ∃ c0, chunk = [c0] := by
          match chunk, hlen with
          | [c0], _ => exact ⟨c0, rfl⟩
        dsimp only at hcs
        rw [hcs, hfs 0 (by simp)]
        simp only [Nat.add_zero, List.getD_cons_zero, hcolD]
  · simp only [if_neg hbound] at hb
    exact absurd hb (by simp)

theorem eval_helper_columns_chunk_identities_witness :
    (([(1 : ZMod 5)] : List (ZMod 5)) ≠ []) ∧
    eval_helper_columns ([none] : List (Option (Filter (ZMod 5)))) [[]] [] [] [1] 3 exCh
      = some [1 * 1 - 1] ∧
    (chunksOf (3 - 1) ([[]] : List (List (ZMod 5))))[0]? = some [[]] ∧
    (([[]] : List (List (ZMod 5))).length = 2 → False) ∧
    (([[]] : List (List (ZMod 5))).length = 1 →
      (([1 * 1 - 1] : List (ZMod 5)))[0]? = some
        (exCh.combine (([[]] : List (List (ZMod 5))).getD 0 []) * ([(1 : ZMod 5)]).getD 0 0
          - filterOptEval (([none] : List (Option (Filter (ZMod 5)))).getD ((3 - 1) * 0) none) [] [])) := by
  refine ⟨by decide, by decide, by decide, by decide, ?_⟩
  have := eval_helper_columns_chunk_identities exCh ([none]) [[]] [] [] [1] 3 ([1 * 1 - 1])
    (by decide) (by decide) 0 [[]] (by decide)
  exact this.2

/-- C10: the constraint checkers handle only chunks of size 1 or 2: whenever
the helper-column list is non-empty and some chunk of the column groups
(chunked by `constraint_degree - 1`) has three or more groups, both
`eval_helper_columns` and `eval_helper_columns_circuit` hit the `todo!` arm
(modelled as `none`) instead of emitting a constraint, even though the
helper-column engine's chunking itself partitions the groups for arbitrary
degrees (the chunks flatten back to the full list). -/
theorem eval_helper_columns_todo_on_large_chunks (ch : GrandProductChallenge F)
    (filter : List (Option (Filter F))) (columns : List (List F))
    (lv nv : List F) (helpers : List F) (cd : Nat)
    (hne : helpers ≠ [])
    (hbig : ∃ chunk ∈ chunksOf (cd - 1) columns, 2 < chunk.length) :
    eval_helper_columns filter columns lv nv helpers cd ch = none ∧
    eval_helper_columns_circuit filter columns lv nv helpers cd ch = none ∧
    (chunksOf (cd - 1) columns).flatten = columns := by
  obtain ⟨chunk, hmem, hlen⟩ := hbig
  have hie : helpers.isEmpty = false := by
    cases helpers with
    | nil => exact absurd rfl hne
    | cons a l => rfl
  obtain ⟨j, hj⟩ : ∃ j : Nat, (chunksOf (cd - 1) columns)[j]? = some chunk :=
    List.getElem?_of_mem hmem
  have hjc : (chunksOf (cd - 1) columns).enum[j]? = some (j, chunk) := by
    rw [List.getElem?_enum, hj]
    rfl
  have hmem' : (j, chunk) ∈ (chunksOf (cd - 1) columns).enum := List.getElem?_mem hjc
  obtain ⟨a, b, c, rest, rfl⟩ : ∃ a b c rest, chunk = a :: b :: c :: rest := by
    match chunk, hlen with
    | a :: b :: c :: rest, _ => exact ⟨a, b, c, rest, rfl⟩
  obtain ⟨m, hm⟩ : ∃ m, cd - 1 = m + 1 := by
    cases hn : cd - 1 with
    | zero => rw [hn, chunksOf_zero] at hmem; exact absurd hmem (by simp)
    | succ m => exact ⟨m, rfl⟩
  refine ⟨?_, ?_, by rw [hm]; exact chunksOf_flatten m columns⟩
  · unfold eval_helper_columns
    rw [hie]
    simp only [Bool.false_eq_true, if_false]
    apply omap_eq_none hmem'
    unfold helperChunkConstraint
    by_cases hbound : (cd - 1) * j + (a :: b :: c :: rest).length ≤ filter.length
    · simp only [if_pos hbound]
      cases helpers[j]? <;> rfl
    · simp only [if_neg hbound]
  · unfold eval_helper_columns_circuit
    rw [hie]
    simp only [Bool.false_eq_true, if_false]
    apply omap_eq_none hmem'
    unfold helperChunkConstraintCircuit
    by_cases hbound : (cd - 1) * j + (a :: b :: c :: rest).length ≤ filter.length
    · simp only [if_pos hbound]
      cases helpers[j]? <;> rfl
    · simp only [if_neg hbound]

theorem eval_helper_columns_todo_on_large_chunks_witness :
    (([(1 : ZMod 5)] : List (ZMod 5)) ≠ []) ∧
    (∃ chunk ∈ chunksOf (4 - 1) ([[], [], []] : List (List (ZMod 5))), 2 < chunk.length) ∧
    eval_helper_columns ([] : List (Option (Filter (ZMod 5)))) [[], [], []] [] [] [1] 4 exCh
      = none ∧
    eval_helper_columns_circuit ([] : List (Option (Filter (ZMod 5)))) [[], [], []] [] [] [1] 4
      exCh = none ∧
    (chunksOf (4 - 1) ([[], [], []] : List (List (ZMod 5)))).flatten = [[], [], []] := by
  have h := eval_helper_columns_todo_on_large_chunks exCh
    ([] : List (Option (Filter (ZMod 5)))) [[], [], []] [] [] [1] 4
    (by decide) ⟨[[], [], []], by decide, by decide⟩
  exact ⟨by decide, ⟨[[], [], []], by decide, by decide⟩, h.1, h.2.1, h.2.2⟩

/-- The value `get_helper_cols` ends up with for one pair at one row: the
inverted combined value on filter-1 rows and exactly 0 on filter-0 rows. -/
def helperEntryVal (trace : List (List F)) (cf : ColumnFilter F)
    (ch : GrandProductChallenge F) (d : Nat) : F :=
  if filterEvalTable cf.2 trace d = 1 then (combinedEvalTable ch cf.1 trace d)⁻¹ else 0

/-- The helper column of one chunk, written pointwise. -/
def chunkColFun (trace : List (List F)) (degree : Nat) (ch : GrandProductChallenge F)
    (chunk : List (ColumnFilter F)) : List F :=
  (List.range degree).map (fun d => (chunk.map (fun cf => helperEntryVal trace cf ch d)).sum)

theorem helperEntry_eq_of_binary (trace : List (List F)) (cf : ColumnFilter F)
    (ch : GrandProductChallenge F) (d : Nat)
    (hbin : filterEvalTable cf.2 trace d = 0 ∨ filterEvalTable cf.2 trace d = 1) :
    helperEntry trace cf ch d = some (helperEntryVal trace cf ch d) := by
  unfold helperEntry helperEntryVal
  rcases hbin with h0 | h1
  · rw [if_neg (by rw [h0]; exact zero_ne_one), if_pos h0, if_neg (by rw [h0]; exact zero_ne_one)]
  · rw [if_pos h1, if_pos h1]

theorem mapRange_getD (g : Nat → F) (n d : Nat) (hd : d < n) :
    ((List.range n).map g).getD d 0 = g d := by
  rw [List.getD_eq_getElem?_getD, List.getElem?_map, List.getElem?_range hd]
  rfl

theorem columnForPair_eq_of_binary (trace : List (List F)) (degree : Nat)
    (cf : ColumnFilter F) (ch : GrandProductChallenge F)
    (hbin : ∀ d < degree,
      filterEvalTable cf.2 trace d = 0 ∨ filterEvalTable cf.2 trace d = 1) :
    columnForPair trace degree cf ch
      = some ((List.range degree).map (helperEntryVal trace cf ch)) := by
  unfold columnForPair
  apply omap_map
  intro d hd
  exact helperEntry_eq_of_binary trace cf ch d (hbin d (List.mem_range.mp hd))

theorem zipWith_add_getD (a b : List F) (d : Nat) (hlen : b.length = a.length)
    (hd : d < a.length) :
    (a.zipWith (· + ·) b).getD d 0 = a.getD d 0 + b.getD d 0 := by
  rw [List.getD_eq_getElem?_getD, List.getElem?_zipWith,
    List.getElem?_eq_getElem hd, List.getElem?_eq_getElem (by omega : d < b.length),
    List.getD_eq_getElem a 0 hd, List.getD_eq_getElem b 0 (by omega : d < b.length)]
  rfl

theorem foldl_zipWith_len :
    ∀ (cols : List (List F)) (acc : List F), (∀ c ∈ cols, c.length = acc.length) →
      (cols.foldl (fun a c => a.zipWith (· + ·) c) acc).length = acc.length := by
  intro cols
  induction cols with
  | nil => intro acc _; rfl
  | cons c cols ih =>
    intro acc hall
    simp only [List.foldl_cons]
    have hc : (acc.zipWith (· + ·) c).length = acc.length := by
      rw [List.length_zipWith, hall c (by simp)]
      omega
    rw [ih _ (fun x hx => by rw [hall x (by simp [hx]), hc]), hc]

theorem foldl_zipWith_getD :
    ∀ (cols : List (List F)) (acc : List F) (d : Nat), d < acc.length →
      (∀ c ∈ cols, c.length = acc.length) →
      (cols.foldl (fun a c => a.zipWith (· + ·) c) acc).getD d 0
        = acc.getD d 0 + (cols.map (fun c => c.getD d 0)).sum := by
  intro cols
  induction cols with
  | nil => intro acc d _ _; simp
  | cons c cols ih =>
    intro acc d hd hall
    simp only [List.foldl_cons, List.map_cons, List.sum_cons]
    have hc : (acc.zipWith (· + ·) c).length = acc.length := by
      rw [List.length_zipWith, hall c (by simp)]
      omega
    rw [ih _ d (by omega) (fun x hx => by rw [hall x (by simp [hx]), hc]),
      zipWith_add_getD acc c d (hall c (by simp)) hd]
    ring

theorem mem_chunksOf_ne_nil (m : Nat) :
    ∀ (l : List α) (c : List α), c ∈ chunksOf (m + 1) l → c ≠ [] := by
  intro l
  match l with
  | [] => intro c hc; rw [chunksOf_nil] at hc; exact absurd hc (by simp)
  | a :: l =>
    intro c hc
    rw [chunksOf_cons] at hc
    rcases List.mem_cons.mp hc with rfl | hc'
    · simp
    · exact mem_chunksOf_ne_nil m (l.drop m) c hc'
termination_by l => l.length
decreasing_by
  simp only [List.length_drop, List.length_cons]
  omega

theorem mem_of_mem_chunksOf {m : Nat} {l c : List α} {a : α}
    (hc : c ∈ chunksOf (m + 1) l) (ha : a ∈ c) : a ∈ l := by
  rw [← chunksOf_flatten m l]
  exact List.mem_flatten.mpr ⟨c, hc, ha⟩

theorem chunkHelperColumn_eq_of_binary (trace : List (List F)) (degree : Nat)
    (ch : GrandProductChallenge F) (chunk : List (ColumnFilter F))
    (hne : chunk ≠ [])
    (hbin : ∀ cf ∈ chunk, ∀ d < degree,
      filterEvalTable cf.2 trace d = 0 ∨ filterEvalTable cf.2 trace d = 1) :
    chunkHelperColumn trace degree ch chunk
      = some (chunkColFun trace degree ch chunk) := by
  match chunk with
  | [] => exact absurd rfl hne
  | first :: rest =>
    unfold chunkHelperColumn
    dsimp only
    rw [columnForPair_eq_of_binary trace degree first ch (hbin first (by simp))]
    rw [omap_map (g := fun cf => (List.range degree).map (helperEntryVal trace cf ch))
      (fun cf hcf => columnForPair_eq_of_binary trace degree cf ch
        (hbin cf (by simp [hcf])))]
    dsimp only
    congr 1
    have hlens : ∀ c ∈ rest.map (fun cf => (List.range degree).map (helperEntryVal trace cf ch)),
        c.length = ((List.range degree).map (helperEntryVal trace first ch)).length := by
      intro c hc
      obtain ⟨cf, _, rfl⟩ := List.mem_map.mp hc
      simp
    apply List.ext_getElem
    · rw [foldl_zipWith_len _ _ hlens]
      simp [chunkColFun]
    · intro d h1 h2
      have hdeg : d < degree := by
        rw [foldl_zipWith_len _ _ hlens] at h1
        simpa using h1
      rw [← List.getD_eq_getElem _ 0 h1, ← List.getD_eq_getElem _ 0 h2,
        foldl_zipWith_getD _ _ d (by simpa using hdeg) hlens]
      unfold chunkColFun
      rw [mapRange_getD _ _ _ hdeg, mapRange_getD _ _ _ hdeg]
      simp only [List.map_map, List.map_cons, List.sum_cons]
      congr 1
      refine congrArg List.sum ?_
      apply List.map_congr_left
      intro cf _
      simp only [Function.comp]
      rw [mapRange_getD _ _ _ hdeg]

theorem get_helper_cols_eq_of_binary (trace : List (List F)) (degree : Nat)
    (cfs : List (ColumnFilter F)) (ch : GrandProductChallenge F) (cd : Nat)
    (hcd : 2 ≤ cd)
    (hbin : ∀ cf ∈ cfs, ∀ d < degree,
      filterEvalTable cf.2 trace d = 0 ∨ filterEvalTable cf.2 trace d = 1) :
    get_helper_cols trace degree cfs ch cd
      = some ((chunksOf (cd - 1) cfs).map (chunkColFun trace degree ch)) := by
  obtain ⟨m, hm⟩ : ∃ m, cd - 1 = m + 1 := ⟨cd - 2, by omega⟩
  unfold get_helper_cols
  apply omap_map
  intro chunk hchunk
  rw [hm] at hchunk
  apply chunkHelperColumn_eq_of_binary trace degree ch chunk
    (mem_chunksOf_ne_nil m cfs chunk hchunk)
  intro cf hcf
  exact hbin cf (mem_of_mem_chunksOf hchunk hcf)

theorem sum_range_list_swap (l : List α) (g : α → Nat → F) (n : Nat) :
    ∑ i ∈ Finset.range n, (l.map (fun a => g a i)).sum
      = (l.map (fun a => ∑ i ∈ Finset.range n, g a i)).sum := by
  induction l with
  | nil => simp
  | cons a l ih =>
    simp only [List.map_cons, List.sum_cons, Finset.sum_add_distrib, ih]

theorem partial_sums_of_get_helper_cols {trace : List (List F)}
    {cfs : List (ColumnFilter F)} {ch : GrandProductChallenge F} {cd : Nat}
    {helpers : List (List F)}
    (h : get_helper_cols trace (trace.getD 0 []).length cfs ch cd = some helpers)
    (hdeg : 1 ≤ (trace.getD 0 []).length) :
    partial_sums trace cfs ch cd
      = some (if cfs.length > 1 then
                helpers ++ [zBuild helpers (trace.getD 0 []).length]
              else [zBuild helpers (trace.getD 0 []).length]) := by
  unfold partial_sums
  dsimp only
  rw [if_neg (by omega), h]

/-- C6: for binary filters, each pair's entry in `get_helper_cols` is the
inverted combined value on filter-1 rows and exactly 0 on filter-0 rows (the
nonzero dummy substituted before batch inversion is forced to 0 after), so a
helper column vanishes at any row where all of its chunk's filters are 0,
and the final accumulated value `Z[0]` equals the sum over filter-1 rows
only of the inverted combined values, unaffected by filter-0 rows. -/
theorem get_helper_cols_zero_rows
    (trace : List (List F)) (cfs : List (ColumnFilter F))
    (ch : GrandProductChallenge F) (cd : Nat)
    (hcd : 2 ≤ cd) (hne : cfs ≠ [])
    (hdeg : 1 ≤ (trace.getD 0 []).length)
    (hbin : ∀ cf ∈ cfs, ∀ d < (trace.getD 0 []).length,
      filterEvalTable cf.2 trace d = 0 ∨ filterEvalTable cf.2 trace d = 1) :
    ∃ helpers, get_helper_cols trace (trace.getD 0 []).length cfs ch cd = some helpers ∧
      (∀ (j : Nat) (chunk : List (ColumnFilter F)),
        (chunksOf (cd - 1) cfs)[j]? = some chunk →
        ∀ d < (trace.getD 0 []).length,
          (∀ cf ∈ chunk, filterEvalTable cf.2 trace d = 0) →
          (helpers.getD j []).getD d 0 = 0) ∧
      ∃ hz z, partial_sums trace cfs ch cd = some hz ∧ hz.getLast? = some z ∧
        z.getD 0 0 = (cfs.map (fun cf =>
          ∑ d ∈ Finset.range (trace.getD 0 []).length,
            helperEntryVal trace cf ch d)).sum := by
  obtain ⟨m, hm⟩ : ∃ m, cd - 1 = m + 1 := ⟨cd - 2, by omega⟩
  have hghc := get_helper_cols_eq_of_binary trace (trace.getD 0 []).length cfs ch cd hcd hbin
  refine ⟨_, hghc, ?_, ?_⟩
  · intro j chunk hj d hd hzero
    have hgetj : ((chunksOf (cd - 1) cfs).map
          (chunkColFun trace (trace.getD 0 []).length ch)).getD j []
        = chunkColFun trace (trace.getD 0 []).length ch chunk := by
      rw [List.getD_eq_getElem?_getD, List.getElem?_map, hj]
      rfl
    rw [hgetj]
    unfold chunkColFun
    rw [mapRange_getD _ _ _ hd]
    apply List.sum_eq_zero
    intro x hx
    obtain ⟨cf, hcf, rfl⟩ := List.mem_map.mp hx
    unfold helperEntryVal
    rw [if_neg (by rw [hzero cf hcf]; exact zero_ne_one)]
  · refine ⟨_, zBuild ((chunksOf (cd - 1) cfs).map
        (chunkColFun trace (trace.getD 0 []).length ch)) (trace.getD 0 []).length,
      partial_sums_of_get_helper_cols hghc hdeg, ?_, ?_⟩
    · by_cases hlen : cfs.length > 1
      · rw [if_pos hlen]
        exact List.getLast?_concat _
      · rw [if_neg hlen]
        exact List.getLast?_singleton _
    · rw [← headD_eq_getD, zBuild_headD _ _ hdeg]
      have hrow : ∀ i < (trace.getD 0 []).length,
          rowSum ((chunksOf (cd - 1) cfs).map
            (chunkColFun trace (trace.getD 0 []).length ch)) i
          = (cfs.map (fun cf => helperEntryVal trace cf ch i)).sum := by
        intro i hi
        unfold rowSum
        rw [List.map_map]
        have hcg : (chunksOf (cd - 1) cfs).map
              ((fun col => col.getD i 0) ∘ chunkColFun trace (trace.getD 0 []).length ch)
            = (chunksOf (cd - 1) cfs).map
              (fun c => (c.map (fun cf => helperEntryVal trace cf ch i)).sum) := by
          apply List.map_congr_left
          intro c _
          simp only [Function.comp]
          unfold chunkColFun
          rw [mapRange_getD _ _ _ hi]
        rw [hcg]
        have h2 : ((chunksOf (cd - 1) cfs).map
              (fun c => (c.map (fun cf => helperEntryVal trace cf ch i)).sum)).sum
            = (((chunksOf (cd - 1) cfs).map
              (fun c => c.map (fun cf => helperEntryVal trace cf ch i))).flatten).sum := by
          rw [List.sum_flatten, List.map_map]
          rfl
        have h3 : (((chunksOf (cd - 1) cfs).map
              (fun c => c.map (fun cf => helperEntryVal trace cf ch i))).flatten)
            = cfs.map (fun cf => helperEntryVal trace cf ch i) := by
          rw [← List.map_flatten, hm, chunksOf_flatten]
        rw [h2, h3]
      rw [Finset.sum_congr rfl (fun i hi => hrow i (Finset.mem_range.mp hi))]
      exact sum_range_list_swap cfs (fun cf i => helperEntryVal trace cf ch i) _

theorem get_helper_cols_zero_rows_witness :
    2 ≤ 3 ∧ ([exCF] : List (ColumnFilter (ZMod 5))) ≠ [] ∧
    1 ≤ (exTrace.getD 0 []).length ∧
    (∀ cf ∈ [exCF], ∀ d < (exTrace.getD 0 []).length,
      filterEvalTable cf.2 exTrace d = 0 ∨ filterEvalTable cf.2 exTrace d = 1) ∧
    (∃ helpers, get_helper_cols exTrace (exTrace.getD 0 []).length [exCF] exCh 3
        = some helpers ∧
      (∀ (j : Nat) (chunk : List (ColumnFilter (ZMod 5))),
        (chunksOf (3 - 1) [exCF])[j]? = some chunk →
        ∀ d < (exTrace.getD 0 []).length,
          (∀ cf ∈ chunk, filterEvalTable cf.2 exTrace d = 0) →
          (helpers.getD j []).getD d 0 = 0) ∧
      ∃ hz z, partial_sums exTrace [exCF] exCh 3 = some hz ∧ hz.getLast? = some z ∧
        z.getD 0 0 = ([exCF].map (fun cf =>
          ∑ d ∈ Finset.range (exTrace.getD 0 []).length,
            helperEntryVal exTrace cf exCh d)).sum) :=
  ⟨by decide, by decide, by decide, by decide,
    get_helper_cols_zero_rows exTrace [exCF] exCh 3 (by decide) (by decide)
      (by decide) (by decide)⟩

/-- Outcome of `verify_cross_table_lookups`: success, the `ensure!` error
carrying the failing lookup's index, or the `unwrap` panic on exhausted
openings. -/
inductive VerifyOutcome where
  | ok : VerifyOutcome
  | fail (index : Nat) : VerifyOutcome
  | exhausted : VerifyOutcome
deriving DecidableEq

/-- The `filtered_looking_tables` construction: each looking table's
identifier once, in first-appearance order. -/
def dedupTables (ts : List (TableWithColumns F)) : List Nat :=
  ts.foldl (fun acc tw => if acc.contains tw.table then acc else acc ++ [tw.table]) []

/-- Consumes the next first-row opening of table `t` from `ctl_zs_openings`
(one iterator per table, modelled by a position function); `none` is the
`unwrap` panic on an exhausted iterator. -/
def takeOpening (zs : List (List F)) (pos : Nat → Nat) (t : Nat) :
    Option (F × (Nat → Nat)) :=
  match (zs.getD t [])[pos t]? with
  | none => none
  | some v => some (v, fun u => if u = t then pos u + 1 else pos u)

/-- `looking_zs_sum`: sums one opening from each filtered looking table. -/
def sumLookings (zs : List (List F)) (pos : Nat → Nat) :
    List Nat → Option (F × (Nat → Nat))
  | [] => some (0, pos)
  | t :: ts =>
    match takeOpening zs pos t with
    | none => none
    | some (v, pos') =>
      match sumLookings zs pos' ts with
      | none => none
      | some (s, pos'') => some (v + s, pos'')

/-- One challenge repetition's check data: the looking sum and the looked
opening, with the advanced positions. -/
def checkOne (zs : List (List F)) (pos : Nat → Nat) (dedup : List Nat)
    (looked : Nat) : Option (F × F × (Nat → Nat)) :=
  match sumLookings zs pos dedup with
  | none => none
  | some (s, pos') =>
    match takeOpening zs pos' looked with
    | none => none
    | some (lz, pos'') => some (s, lz, pos'')

/-- The `for _c in 0..num_challenges` loop of one cross-table lookup:
either an early outcome or the positions after all repetitions. -/
def verifyChallenges (zs : List (List F)) (idx : Nat) (dedup : List Nat)
    (looked : Nat) (pos : Nat → Nat) : Nat → VerifyOutcome ⊕ (Nat → Nat)
  | 0 => Sum.inr pos
  | c + 1 =>
    match checkOne zs pos dedup looked with
    | none => Sum.inl VerifyOutcome.exhausted
    | some (s, lz, pos') =>
      if s = lz then verifyChallenges zs idx dedup looked pos' c
      else Sum.inl (VerifyOutcome.fail idx)

/-- The loop of `verify_cross_table_lookups` over the lookups. -/
def verifyLoop (zs : List (List F)) (nc : Nat) :
    List (CrossTableLookup F) → Nat → (Nat → Nat) → VerifyOutcome
  | [], _, _ => VerifyOutcome.ok
  | ctl :: rest, idx, pos =>
    match verifyChallenges zs idx (dedupTables ctl.looking_tables)
        ctl.looked_table.table pos nc with
    | Sum.inl r => r
    | Sum.inr pos' => verifyLoop zs nc rest (idx + 1) pos'

/-- `verify_cross_table_lookups`: `ctl_zs_first` holds each table's first-row
Z openings; `nc` is `config.num_challenges`. -/
def verify_cross_table_lookups (ctls : List (CrossTableLookup F))
    (ctl_zs_first : List (List F)) (nc : Nat) : VerifyOutcome :=
  verifyLoop ctl_zs_first nc ctls 0 (fun _ => 0)

/-- Pure enumeration of every `(lookup index, looking sum, looked opening)`
triple the verifier compares, consuming openings in the same order but
without early exit. -/
def enumChallenges (zs : List (List F)) (idx : Nat) (dedup : List Nat)
    (looked : Nat) (pos : Nat → Nat) : Nat → Option (List (Nat × F × F) × (Nat → Nat))
  | 0 => some ([], pos)
  | c + 1 =>
    match checkOne zs pos dedup looked with
    | none => none
    | some (s, lz, pos') =>
      match enumChallenges zs idx dedup looked pos' c with
      | none => none
      | some (cs, p) => some ((idx, s, lz) :: cs, p)

/-- Enumeration counterpart of `verifyLoop`. -/
def enumLoop (zs : List (List F)) (nc : Nat) :
    List (CrossTableLookup F) → Nat → (Nat → Nat) → Option (List (Nat × F × F))
  | [], _, _ => some []
  | ctl :: rest, idx, pos =>
    match enumChallenges zs idx (dedupTables ctl.looking_tables)
        ctl.looked_table.table pos nc with
    | none => none
    | some (cs, pos') =>
      match enumLoop zs nc rest (idx + 1) pos' with
      | none => none
      | some cs' => some (cs ++ cs')

/-- All comparisons `verify_cross_table_lookups` performs, in order. -/
def ctlChecks (ctls : List (CrossTableLookup F)) (ctl_zs_first : List (List F))
    (nc : Nat) : Option (List (Nat × F × F)) :=
  enumLoop ctl_zs_first nc ctls 0 (fun _ => 0)

theorem enumChallenges_verify (zs : List (List F)) (idx : Nat) (dedup : List Nat)
    (looked : Nat) :
    ∀ (n : Nat) (pos pos' : Nat → Nat) (cs : List (Nat × F × F)),
      enumChallenges zs idx dedup looked pos n = some (cs, pos') →
      (∀ e ∈ cs, e.1 = idx) ∧
      ((∀ e ∈ cs, e.2.1 = e.2.2) →
        verifyChallenges zs idx dedup looked pos n = Sum.inr pos') ∧
      ((∃ e ∈ cs, e.2.1 ≠ e.2.2) →
        verifyChallenges zs idx dedup looked pos n
          = Sum.inl (VerifyOutcome.fail idx)) := by
  intro n
  induction n with
  | zero =>
    intro pos pos' cs h
    simp only [enumChallenges] at h
    cases h
    exact ⟨by simp, fun _ => rfl, fun he => absurd he (by simp)⟩
  | succ c ih =>
    intro pos pos' cs h
    simp only [enumChallenges, verifyChallenges] at h ⊢
    cases hco : checkOne zs pos dedup looked with
    | none => rw [hco] at h; exact absurd h (by simp)
    | some slp =>
      obtain ⟨s, lz, p1⟩ := slp
      rw [hco] at h
      dsimp only at h
      cases hrest : enumChallenges zs idx dedup looked p1 c with
      | none => rw [hrest] at h; exact absurd h (by simp)
      | some csp =>
        obtain ⟨cs0, p2⟩ := csp
        rw [hrest] at h
        dsimp only at h
        cases h
        dsimp only
        obtain ⟨iha, ihb, ihc⟩ := ih p1 pos' cs0 hrest
        refine ⟨?_, ?_, ?_⟩
        · intro e he
          rcases List.mem_cons.mp he with rfl | he'
          · rfl
          · exact iha e he'
        · intro hall
          have hs : s = lz := hall (idx, s, lz) (by simp)
          rw [if_pos hs]
          exact ihb (fun e he => hall e (by simp [he]))
        · intro hex
          by_cases hs : s = lz
          · rw [if_pos hs]
            apply ihc
            obtain ⟨e, he, hne⟩ := hex
            rcases List.mem_cons.mp he with rfl | he'
            · exact absurd hs hne
            · exact ⟨e, he', hne⟩
          · rw [if_neg hs]

theorem enumLoop_verify (zs : List (List F)) (nc : Nat) :
    ∀ (ctls : List (CrossTableLookup F)) (idx : Nat) (pos : Nat → Nat)
      (cs : List (Nat × F × F)),
      enumLoop zs nc ctls idx pos = some cs →
      ((∀ e ∈ cs, e.2.1 = e.2.2) → verifyLoop zs nc ctls idx pos = VerifyOutcome.ok) ∧
      ((∃ e ∈ cs, e.2.1 ≠ e.2.2) →
        ∃ e, cs.find? (fun x => decide (x.2.1 ≠ x.2.2)) = some e ∧
          verifyLoop zs nc ctls idx pos = VerifyOutcome.fail e.1) := by
  intro ctls
  induction ctls with
  | nil =>
    intro idx pos cs h
    simp only [enumLoop] at h
    cases h
    exact ⟨fun _ => rfl, fun he => absurd he (by simp)⟩
  | cons ctl rest ih =>
    intro idx pos cs h
    simp only [enumLoop, verifyLoop] at h ⊢
    cases hec : enumChallenges zs idx (dedupTables ctl.looking_tables)
        ctl.looked_table.table pos nc with
    | none => rw [hec] at h; exact absurd h (by simp)
    | some csp =>
      obtain ⟨cs0, pos'⟩ := csp
      rw [hec] at h
      dsimp only at h
      cases hel : enumLoop zs nc rest (idx + 1) pos' with
      | none => rw [hel] at h; exact absurd h (by simp)
      | some cs1 =>
        rw [hel] at h
        dsimp only at h
        cases h
        obtain ⟨ha0, hb0, hc0⟩ := enumChallenges_verify zs idx _ _ nc pos pos' cs0 hec
        obtain ⟨ihb, ihc⟩ := ih (idx + 1) pos' cs1 hel
        constructor
        · intro hall
          rw [hb0 (fun e he => hall e (List.mem_append.mpr (Or.inl he)))]
          exact ihb (fun e he => hall e (List.mem_append.mpr (Or.inr he)))
        · intro hex
          by_cases hcs0 : ∀ e ∈ cs0, e.2.1 = e.2.2
          · have hfind0 : cs0.find? (fun x => decide (x.2.1 ≠ x.2.2)) = none := by
              rw [List.find?_eq_none]
              intro x hx
              simp only [decide_not, Bool.not_eq_true', decide_eq_false_iff_not,
                Decidable.not_not]
              exact hcs0 x hx
            have hex1 : ∃ e ∈ cs1, e.2.1 ≠ e.2.2 := by
              obtain ⟨e, he, hne⟩ := hex
              rcases List.mem_append.mp he with he' | he'
              · exact absurd (hcs0 e he') hne
              · exact ⟨e, he', hne⟩
            obtain ⟨e, hfind1, hloop⟩ := ihc hex1
            refine ⟨e, ?_, ?_⟩
            · rw [List.find?_append, hfind0, Option.none_or]
              exact hfind1
            · rw [hb0 hcs0]
              exact hloop
          · push_neg at hcs0
            have hfind0 : ∃ e0, cs0.find? (fun x => decide (x.2.1 ≠ x.2.2)) = some e0 := by
              rw [← Option.isSome_iff_exists, List.find?_isSome]
              obtain ⟨e, he, hne⟩ := hcs0
              exact ⟨e, he, by simpa using hne⟩
            obtain ⟨e0, hfind0⟩ := hfind0
            refine ⟨e0, ?_, ?_⟩
            · rw [List.find?_append, hfind0]
              rfl
            · rw [hc0 ⟨_, List.mem_of_find?_eq_some hfind0,
                by simpa using List.find?_some hfind0⟩]
              rw [ha0 e0 (List.mem_of_find?_eq_some hfind0)]

/-- C5: whenever the verifier's traversal of the first-row Z openings is
well-defined (no iterator exhausts), `verify_cross_table_lookups` returns Ok
iff, for every cross-table lookup and every challenge repetition, the sum of
the distinct looking tables' first-row Z openings (each physical table
counted once, via `dedupTables`) equals the looked table's first-row Z
opening; and on a mismatch the error reports the index of the failing
lookup — the first entry of the comparison list whose sum differs. -/
theorem verify_cross_table_lookups_iff (ctls : List (CrossTableLookup F))
    (zs : List (List F)) (nc : Nat) (cs : List (Nat × F × F))
    (h : ctlChecks ctls zs nc = some cs) :
    ((verify_cross_table_lookups ctls zs nc = VerifyOutcome.ok) ↔
      ∀ e ∈ cs, e.2.1 = e.2.2) ∧
    (∀ i, verify_cross_table_lookups ctls zs nc = VerifyOutcome.fail i →
      ∃ e, cs.find? (fun x => decide (x.2.1 ≠ x.2.2)) = some e ∧ e.1 = i) := by
  obtain ⟨hok, hfail⟩ := enumLoop_verify zs nc ctls 0 (fun _ => 0) cs h
  constructor
  · constructor
    · intro hv
      by_contra hnall
      push_neg at hnall
      obtain ⟨e, hfnd, hloop⟩ := hfail hnall
      rw [verify_cross_table_lookups] at hv
      rw [hv] at hloop
      exact absurd hloop (by simp)
    · exact hok
  · intro i hv
    by_cases hall : ∀ e ∈ cs, e.2.1 = e.2.2
    · rw [verify_cross_table_lookups] at hv
      rw [hok hall] at hv
      exact absurd hv (by simp)
    · push_neg at hall
      obtain ⟨e, hfnd, hloop⟩ := hfail hall
      rw [verify_cross_table_lookups] at hv
      rw [hv] at hloop
      exact ⟨e, hfnd, by injection hloop.symm⟩

/-- Concrete cross-table lookup for the verifier witness: table 0 looks,
table 1 is looked. -/
def exCtl5 : CrossTableLookup (ZMod 5) :=
  ⟨[⟨0, [], none⟩], ⟨1, [], none⟩⟩

theorem verify_cross_table_lookups_iff_witness :
    ctlChecks [exCtl5] [[2], [2]] 1 = some [(0, 2, 2)] ∧
    ((verify_cross_table_lookups [exCtl5] [[2], [2]] 1 = VerifyOutcome.ok) ↔
      ∀ e ∈ [((0 : Nat), (2 : ZMod 5), (2 : ZMod 5))], e.2.1 = e.2.2) ∧
    (∀ i, verify_cross_table_lookups [exCtl5] [[2], [2]] 1 = VerifyOutcome.fail i →
      ∃ e, [((0 : Nat), (2 : ZMod 5), (2 : ZMod 5))].find?
          (fun x => decide (x.2.1 ≠ x.2.2)) = some e ∧ e.1 = i) :=
  ⟨by decide, verify_cross_table_lookups_iff [exCtl5] [[2], [2]] 1 [(0, 2, 2)] (by decide)⟩

/-- The recursion threshold of `fixed_recursive_verifier.rs`. -/
def THRESHOLD_DEGREE_BITS : Nat := 13

/-- Fuel-driven worker for the shrinking recursion loop (strict decrease
bounds the number of iterations by the starting degree, so `buildChain`
always supplies enough fuel). -/
def shrinkLoop (step : Nat → Nat) : Nat → Nat → Option (List Nat)
  | 0, _ => none
  | fuel + 1, d =>
    if d < THRESHOLD_DEGREE_BITS then none
    else if d = THRESHOLD_DEGREE_BITS then some [d]
    else
      let nx := step d
      if nx < d then (shrinkLoop step fuel nx).map (d :: ·) else none

/-- Modelled from the spec and the loop of `RecursiveCircuitsForTableSize::new`:
building one wrapping circuit is external plonky2 work, so `step` abstracts
the `degree_bits` of the circuit built to verify a circuit of the given
`degree_bits`. The two `assert!`s (degree at least the threshold; each step
strictly smaller) are `none`, fatal construction-time errors; the result
lists every circuit's `degree_bits` from the initial wrapper down to the
final circuit. -/
def buildChain (step : Nat → Nat) (d : Nat) : Option (List Nat) :=
  shrinkLoop step (d + 1) d

theorem shrinkLoop_congr (step : Nat → Nat) :
    ∀ (fuel fuel' d : Nat), d < fuel → d < fuel' →
      shrinkLoop step fuel d = shrinkLoop step fuel' d := by
  intro fuel
  induction fuel with
  | zero => intro fuel' d h _; omega
  | succ fuel ih =>
    intro fuel' d h h'
    cases fuel' with
    | zero => omega
    | succ fuel' =>
      simp only [shrinkLoop]
      by_cases h1 : d < THRESHOLD_DEGREE_BITS
      · rw [if_pos h1, if_pos h1]
      · rw [if_neg h1, if_neg h1]
        by_cases h2 : d = THRESHOLD_DEGREE_BITS
        · rw [if_pos h2, if_pos h2]
        · rw [if_neg h2, if_neg h2]
          by_cases h3 : step d < d
          · rw [if_pos h3, if_pos h3, ih fuel' (step d) (by omega) (by omega)]
          · rw [if_neg h3, if_neg h3]

theorem shrinkLoop_spec (step : Nat → Nat) :
    ∀ (fuel d : Nat) (l : List Nat), shrinkLoop step fuel d = some l →
      l.head? = some d ∧ List.Chain' (fun a b => b < a) l ∧
      l.getLast? = some THRESHOLD_DEGREE_BITS := by
  intro fuel
  induction fuel with
  | zero => intro d l h; exact absurd h (by simp [shrinkLoop])
  | succ fuel ih =>
    intro d l h
    simp only [shrinkLoop] at h
    by_cases h1 : d < THRESHOLD_DEGREE_BITS
    · rw [if_pos h1] at h
      exact absurd h (by simp)
    · rw [if_neg h1] at h
      by_cases h2 : d = THRESHOLD_DEGREE_BITS
      · rw [if_pos h2] at h
        cases h
        subst h2
        exact ⟨rfl, by simp, by simp⟩
      · rw [if_neg h2] at h
        by_cases h3 : step d < d
        · rw [if_pos h3] at h
          cases hrec : shrinkLoop step fuel (step d) with
          | none =>
            rw [hrec, Option.map_none'] at h
            exact absurd h (by simp)
          | some l' =>
            rw [hrec] at h
            simp only [Option.map_some'] at h
            cases h
            obtain ⟨hhead, hchain, hlast⟩ := ih (step d) l' hrec
            cases l' with
            | nil => exact absurd hhead (by simp)
            | cons a t =>
              simp only [List.head?_cons, Option.some.injEq] at hhead
              subst hhead
              refine ⟨rfl, ?_, ?_⟩
              · exact List.Chain'.cons h3 hchain
              · rw [List.getLast?_cons_cons]
                exact hlast
        · rw [if_neg h3] at h
          exact absurd h (by simp)

/-- C7: the shrinking-chain construction terminates for every step behaviour
and every initial degree at least the threshold (the fuel `d + 1` is always
enough: any larger fuel computes the same chain); whenever it completes
without a fatal error the produced chain starts at the initial degree,
every shrink step's degree is strictly smaller than the previous one, and
the final circuit's `degree_bits` is exactly `THRESHOLD_DEGREE_BITS = 13`;
a non-decreasing step (or a drop below the threshold) is a fatal
construction-time error (`none`). -/
theorem buildChain_converges (step : Nat → Nat) (d : Nat)
    (hinit : THRESHOLD_DEGREE_BITS ≤ d) :
    THRESHOLD_DEGREE_BITS = 13 ∧
    (∀ fuel, d < fuel → shrinkLoop step fuel d = buildChain step d) ∧
    (THRESHOLD_DEGREE_BITS < d → d ≤ step d → buildChain step d = none) ∧
    (∀ l, buildChain step d = some l →
      l.head? = some d ∧ List.Chain' (fun a b => b < a) l ∧
      l.getLast? = some THRESHOLD_DEGREE_BITS) := by
  refine ⟨rfl, ?_, ?_, ?_⟩
  · intro fuel hfuel
    exact shrinkLoop_congr step fuel (d + 1) d hfuel (by omega)
  · intro hgt hge
    unfold buildChain shrinkLoop
    rw [if_neg (by omega), if_neg (by omega), if_neg (by omega)]
  · intro l h
    exact shrinkLoop_spec step (d + 1) d l h

theorem buildChain_converges_witness :
    THRESHOLD_DEGREE_BITS ≤ 15 ∧
    (THRESHOLD_DEGREE_BITS = 13 ∧
    (∀ fuel, 15 < fuel →
      shrinkLoop (fun x => x - 1) fuel 15 = buildChain (fun x => x - 1) 15) ∧
    (THRESHOLD_DEGREE_BITS < 15 → 15 ≤ (fun x => x - 1) 15 →
      buildChain (fun x => x - 1) 15 = none) ∧
    (∀ l, buildChain (fun x => x - 1) 15 = some l →
      l.head? = some 15 ∧ List.Chain' (fun a b => b < a) l ∧
      l.getLast? = some THRESHOLD_DEGREE_BITS)) ∧
    buildChain (fun x => x - 1) 15 = some [15, 14, 13] :=
  ⟨by decide, buildChain_converges (fun x => x - 1) 15 (by decide), by decide⟩

/-- Modelled from the spec: the public values a proof or receipt carries
(`PublicValues` lives in `proof.rs`, outside this repository): state roots
before and after, plus the "userdata" side channel, all as limb lists. -/
structure PublicValues (α : Type) where
  roots_before : List α
  roots_after : List α
  userdata : List α
deriving DecidableEq

/-- Modelled from the spec: the part of a receipt `prove_aggregation` reads
(`Receipt` lives in `generation/state.rs`, outside this repository): its
public values. -/
structure Receipt (α : Type) where
  values : PublicValues α
deriving DecidableEq

/-- The public values `prove_aggregation` assembles for the parent receipt:
`roots_before` from the left child, `roots_after` and `userdata` from the
right child. The `is_agg` flags only select which child proof the circuit
verifies and do not enter this computation. -/
def prove_aggregation_values (lhs_is_agg : Bool) (lhs : Receipt α)
    (rhs_is_agg : Bool) (rhs : Receipt α) : PublicValues α :=
  { roots_before := lhs.values.roots_before
    roots_after := rhs.values.roots_after
    userdata := rhs.values.userdata }

/-- The equalities `create_aggregation_circuit` constrains between the
parent's and the children's public values: its five `connect` blocks
(parent/lhs `roots_before`, parent/rhs `roots_after`, lhs `roots_after` with
rhs `roots_before`, parent `userdata` with each child);
`MemRootsTarget::connect` (outside this repository) is modelled from the
spec as equality of the root limb lists. -/
def aggregation_circuit_constraints (pv lhs rhs : PublicValues α) : Prop :=
  pv.roots_before = lhs.roots_before ∧
  pv.roots_after = rhs.roots_after ∧
  lhs.roots_after = rhs.roots_before ∧
  pv.userdata = lhs.userdata ∧
  pv.userdata = rhs.userdata

/-- C8: for any two child receipts and any `is_agg` flags,
`prove_aggregation` produces public values whose `roots_before` equal the
left child's `roots_before` and whose `roots_after` equal the right child's
`roots_after`; and the aggregation circuit's constraints hold exactly when,
additionally, the left child's `roots_after` equal the right child's
`roots_before` and the `userdata` agrees across the left child, the right
child and the parent. -/
theorem prove_aggregation_public_values (lhs_is_agg rhs_is_agg : Bool)
    (lhs rhs : Receipt α) (pv : PublicValues α) :
    (prove_aggregation_values lhs_is_agg lhs rhs_is_agg rhs).roots_before
        = lhs.values.roots_before ∧
    (prove_aggregation_values lhs_is_agg lhs rhs_is_agg rhs).roots_after
        = rhs.values.roots_after ∧
    (aggregation_circuit_constraints pv lhs.values rhs.values ↔
      (lhs.values.roots_after = rhs.values.roots_before ∧
       pv.userdata = lhs.values.userdata ∧
       pv.userdata = rhs.values.userdata ∧
       lhs.values.userdata = rhs.values.userdata ∧
       pv.roots_before = lhs.values.roots_before ∧
       pv.roots_after = rhs.values.roots_after)) := by
  refine ⟨rfl, rfl, ?_⟩
  constructor
  · rintro ⟨h1, h2, h3, h4, h5⟩
    exact ⟨h3, h4, h5, h4.symm.trans h5, h1, h2⟩
  · rintro ⟨h3, h4, h5, _, h1, h2⟩
    exact ⟨h1, h2, h3, h4, h5⟩

/-- `CrossTableLookup::num_ctl_helpers_zs_all`: for one table, the total
number of helper columns, the total number of z polynomials, and the
per-lookup helper counts, over all cross-table lookups. -/
def num_ctl_helpers_zs_all (ctls : List (CrossTableLookup F)) (table : Nat)
    (num_challenges constraint_degree : Nat) : Nat × Nat × List Nat :=
  let fold := ctls.foldl (fun (acc : Nat × Nat × List Nat) ctl =>
    let num_appearances := (ctl.looked_table :: ctl.looking_tables).countP
      (fun twc => decide (twc.table = table))
    let hb := if num_appearances > 1 then
        ceil_div_usize num_appearances (constraint_degree - 1)
      else 0
    (acc.1 + hb, acc.2.1 + (if num_appearances > 0 then 1 else 0), acc.2.2 ++ [hb]))
    (0, 0, [])
  (fold.1 * num_challenges, fold.2.1 * num_challenges, fold.2.2)

/-- `CtlZData`: one Z polynomial's data. -/
structure CtlZData (F : Type) where
  helper_columns : List (List F)
  z : List F
  challenge : GrandProductChallenge F
  columns : List (List (Column F))
  filter : List (Option (Filter F))

/-- `ctl_helper_zs_cols`: helper columns and Z polynomials for all looking
tables of one lookup, grouped by itertools' `group_by` into consecutive runs
sharing a table. -/
def ctl_helper_zs_cols (traces : Nat → List (List F))
    (looking_tables : List (TableWithColumns F)) (challenge : GrandProductChallenge F)
    (constraint_degree : Nat) : Option (List (Nat × List (List F))) :=
  omap (fun r =>
      (partial_sums (traces r.1) (r.2.map (fun tw => (tw.columns, tw.filter)))
        challenge constraint_degree).map (fun hz => (r.1, hz)))
    (runsBy (fun tw => tw.table) looking_tables)

/-- Appends one `CtlZData` to table `t`'s list (`ctl_data_per_table[t].zs_columns.push`). -/
def pushZData (data : Nat → List (CtlZData F)) (t : Nat) (zd : CtlZData F) :
    Nat → List (CtlZData F) :=
  fun u => if u = t then data u ++ [zd] else data u

/-- Body of the `for (table, helpers_zs) in helper_zs_looking` loop of
`cross_table_lookup_data`: the group's polynomials split into helper columns
(all but the last) and Z (the last), with the columns and filters of every
looking entry of that table. -/
def pushLooking (ctl : CrossTableLookup F) (challenge : GrandProductChallenge F)
    (d : Nat → List (CtlZData F)) (p : Nat × List (List F)) :
    Nat → List (CtlZData F) :=
  let num_helpers := p.2.length - 1
  let cols_filts := ctl.looking_tables.filter (fun tw => tw.table == p.1)
  pushZData d p.1 ⟨p.2.take num_helpers, p.2.getD num_helpers [], challenge,
    cols_filts.map (fun tw => tw.columns), cols_filts.map (fun tw => tw.filter)⟩

/-- One `(lookup, challenge)` iteration of `cross_table_lookup_data`: pushes
one `CtlZData` per consecutive looking group (last polynomial as Z, the
others as helper columns) and one helperless `CtlZData` for the looked
table. -/
def ctlChallengeData (traces : Nat → List (List F)) (ctl : CrossTableLookup F)
    (challenge : GrandProductChallenge F) (cd : Nat)
    (data : Nat → List (CtlZData F)) : Option (Nat → List (CtlZData F)) :=
  match ctl_helper_zs_cols traces ctl.looking_tables challenge cd with
  | none => none
  | some helper_zs_looking =>
    match partial_sums (traces ctl.looked_table.table)
        [(ctl.looked_table.columns, ctl.looked_table.filter)] challenge cd with
    | none => none
    | some z_looked =>
      let data1 := helper_zs_looking.foldl (pushLooking ctl challenge) data
      some (pushZData data1 ctl.looked_table.table
        ⟨[], z_looked.getD 0 [], challenge, [ctl.looked_table.columns],
          [ctl.looked_table.filter]⟩)

/-- The `for &challenge in &ctl_challenges.challenges` loop. -/
def ctlAllChallenges (traces : Nat → List (List F)) (ctl : CrossTableLookup F)
    (cd : Nat) :
    List (GrandProductChallenge F) → (Nat → List (CtlZData F)) →
      Option (Nat → List (CtlZData F))
  | [], d => some d
  | ch :: rest, d =>
    match ctlChallengeData traces ctl ch cd d with
    | none => none
    | some d' => ctlAllChallenges traces ctl cd rest d'

/-- The outer loop of `cross_table_lookup_data` over the lookups. -/
def ctlDataLoop (traces : Nat → List (List F))
    (chs : List (GrandProductChallenge F)) (cd : Nat) :
    List (CrossTableLookup F) → (Nat → List (CtlZData F)) →
      Option (Nat → List (CtlZData F))
  | [], d => some d
  | ctl :: rest, d =>
    match ctlAllChallenges traces ctl cd chs d with
    | none => none
    | some d' => ctlDataLoop traces chs cd rest d'

/-- `cross_table_lookup_data`: the per-table `CtlZData` lists (tables as
indices into a total map, starting empty). -/
def cross_table_lookup_data (traces : Nat → List (List F))
    (cross_table_lookups : List (CrossTableLookup F))
    (ctl_challenges : List (GrandProductChallenge F)) (constraint_degree : Nat) :
    Option (Nat → List (CtlZData F)) :=
  ctlDataLoop traces ctl_challenges constraint_degree cross_table_lookups (fun _ => [])

/-- Lookup whose looked table also appears as a looking table: the
configuration on which the two counting schemes disagree. -/
def ctl9 : CrossTableLookup (ZMod 5) :=
  ⟨[⟨0, [Column.single 0], some (Filter.new_simple (Column.single 0))⟩],
    ⟨0, [Column.single 0], some (Filter.new_simple (Column.single 0))⟩⟩

theorem num_ctl_helpers_zs_all_counterexample :
    num_ctl_helpers_zs_all [ctl9] 0 1 3 = (1, 1, [1]) ∧
    (cross_table_lookup_data (fun _ => [[0]]) [ctl9] [exCh] 3).map
        (fun d => (((d 0).map (fun zd => zd.helper_columns.length)).sum, (d 0).length))
      = some (0, 2) := by
  decide

theorem runsBy_eq_nil {key : α → Nat} :
    ∀ {l : List α}, runsBy key l = [] → l = [] := by
  intro l
  cases l with
  | nil => intro _; rfl
  | cons a rest =>
    intro h
    simp only [runsBy] at h
    cases hr : runsBy key rest with
    | nil => rw [hr] at h; exact absurd h (by simp)
    | cons r gs =>
      obtain ⟨k, g⟩ := r
      rw [hr] at h
      dsimp only at h
      by_cases hk : key a = k
      · rw [if_pos hk] at h; exact absurd h (by simp)
      · rw [if_neg hk] at h; exact absurd h (by simp)

theorem runsBy_runs (key : α → Nat) :
    ∀ (l : List α) (r : Nat × List α), r ∈ runsBy key l →
      r.2 ≠ [] ∧ ∀ a ∈ r.2, key a = r.1 := by
  intro l
  induction l with
  | nil => intro r hr; exact absurd hr (by simp [runsBy])
  | cons a rest ih =>
    intro r hr
    simp only [runsBy] at hr
    cases hrb : runsBy key rest with
    | nil =>
      rw [hrb] at hr
      rcases List.mem_singleton.mp hr with rfl
      exact ⟨by simp, by simp⟩
    | cons r0 gs =>
      obtain ⟨k, g⟩ := r0
      rw [hrb] at hr
      dsimp only at hr
      by_cases hk : key a = k
      · rw [if_pos hk] at hr
        rcases List.mem_cons.mp hr with rfl | hr'
        · obtain ⟨_, hall⟩ := ih (k, g) (by rw [hrb]; simp)
          refine ⟨by simp, ?_⟩
          intro x hx
          rcases List.mem_cons.mp hx with rfl | hx'
          · exact hk
          · exact hall x hx'
        · exact ih r (by rw [hrb]; simp [hr'])
      · rw [if_neg hk] at hr
        rcases List.mem_cons.mp hr with rfl | hr'
        · exact ⟨by simp, by simp⟩
        · exact ih r (by rw [hrb]; exact hr')

theorem runsBy_countP (key : α → Nat) (t : Nat) :
    ∀ (l : List α),
      l.countP (fun a => decide (key a = t))
        = ((runsBy key l).map (fun r => if r.1 = t then r.2.length else 0)).sum := by
  intro l
  induction l with
  | nil => rfl
  | cons a rest ih =>
    rw [List.countP_cons]
    simp only [runsBy]
    cases hrb : runsBy key rest with
    | nil =>
      have : rest = [] := runsBy_eq_nil hrb
      subst this
      simp only [List.countP_nil, List.map_cons, List.map_nil, List.sum_cons,
        List.sum_nil, List.length_singleton]
      by_cases hk : key a = t
      · rw [if_pos hk]; simp [hk]
      · rw [if_neg hk]; simp [hk]
    | cons r0 gs =>
      obtain ⟨k, g⟩ := r0
      rw [hrb] at ih
      dsimp only
      by_cases hk : key a = k
      · rw [if_pos hk]
        simp only [List.map_cons, List.sum_cons, List.length_cons] at ih ⊢
        rw [ih]
        by_cases hkt : k = t
        · rw [if_pos hkt, if_pos hkt, if_pos (by simp [hk, hkt])]
          omega
        · rw [if_neg hkt, if_neg hkt, if_neg (by simp [hk, hkt])]
          omega
      · rw [if_neg hk]
        simp only [List.map_cons, List.sum_cons] at ih ⊢
        rw [ih]
        by_cases hat : key a = t
        · simp [hat]
          try omega
        · simp [hat]
          try omega

theorem chunksOf_length_eq (m : Nat) :
    ∀ (l : List α), (chunksOf (m + 1) l).length = ceil_div_usize l.length (m + 1) := by
  intro l
  match l with
  | [] =>
    rw [chunksOf_nil]
    show 0 = (0 + (m + 1) - 1) / (m + 1)
    rw [Nat.zero_add]
    exact (Nat.div_eq_of_lt (by omega)).symm
  | a :: l =>
    rw [chunksOf_cons]
    have ih := chunksOf_length_eq m (l.drop m)
    simp only [List.length_cons, List.length_drop] at ih ⊢
    rw [ih]
    unfold ceil_div_usize
    by_cases hL : m ≤ l.length
    · have h1 : l.length + 1 + (m + 1) - 1 = l.length + (m + 1) := by omega
      have h2 : l.length - m + (m + 1) - 1 = (l.length - m) + m := by omega
      rw [h1, h2, Nat.add_div_right _ (by omega : 0 < m + 1)]
      have h3 : l.length - m + m = l.length := by omega
      rw [h3]
      try omega
    · have h0 : l.length - m = 0 := by omega
      rw [h0]
      have h1 : (0 + (m + 1) - 1) / (m + 1) = 0 := Nat.div_eq_of_lt (by omega)
      rw [h1]
      have h2 : l.length + 1 + (m + 1) - 1 = l.length + 1 + m := by omega
      rw [h2]
      have := Nat.div_eq_of_lt_le (by omega : 1 * (m + 1) ≤ l.length + 1 + m)
        (by omega : l.length + 1 + m < (1 + 1) * (m + 1))
      omega
termination_by l => l.length
decreasing_by
  simp only [List.length_drop, List.length_cons]
  omega

theorem get_helper_cols_length {trace : List (List F)} {degree : Nat}
    {cfs : List (ColumnFilter F)} {ch : GrandProductChallenge F} {cd : Nat}
    {helpers : List (List F)} (hcd : 2 ≤ cd)
    (h : get_helper_cols trace degree cfs ch cd = some helpers) :
    helpers.length = ceil_div_usize cfs.length (cd - 1) := by
  obtain ⟨m, hm⟩ : ∃ m, cd - 1 = m + 1 := ⟨cd - 2, by omega⟩
  unfold get_helper_cols at h
  rw [omap_length h, hm, chunksOf_length_eq, ← hm]

theorem partial_sums_length {trace : List (List F)} {cfs : List (ColumnFilter F)}
    {ch : GrandProductChallenge F} {cd : Nat} {hz : List (List F)}
    (hcd : 2 ≤ cd) (h : partial_sums trace cfs ch cd = some hz) :
    hz.length = if cfs.length > 1 then ceil_div_usize cfs.length (cd - 1) + 1 else 1 := by
  obtain ⟨hdeg, helpers, hhc, hform⟩ := partial_sums_some h
  subst hform
  by_cases hlen : cfs.length > 1
  · rw [if_pos hlen, if_pos hlen]
    simp only [List.length_append, List.length_singleton]
    rw [get_helper_cols_length hcd hhc]
  · rw [if_neg hlen, if_neg hlen]
    rfl

/-- Total number of helper polynomials in one table's `CtlZData` list. -/
def helperSum (l : List (CtlZData F)) : Nat :=
  (l.map (fun zd => zd.helper_columns.length)).sum

/-- Number of `CtlZData` entries one `(lookup, challenge)` iteration pushes
to table `t`: one per consecutive looking run of `t` plus one when `t` is
the looked table. -/
def zsDelta (ctl : CrossTableLookup F) (t : Nat) : Nat :=
  (runsBy (fun tw => tw.table) ctl.looking_tables).countP (fun r => decide (r.1 = t))
    + (if ctl.looked_table.table = t then 1 else 0)

/-- Number of helper polynomials one `(lookup, challenge)` iteration pushes
to table `t`: per consecutive looking run of `t`, none for a singleton run
and `⌈size/(cd-1)⌉` otherwise. -/
def helpersDelta (cd : Nat) (ctl : CrossTableLookup F) (t : Nat) : Nat :=
  ((runsBy (fun tw => tw.table) ctl.looking_tables).map (fun r =>
    if r.1 = t then (if r.2.length > 1 then ceil_div_usize r.2.length (cd - 1) else 0)
    else 0)).sum

/-- What `num_ctl_helpers_zs_all` adds to the helper total for one lookup. -/
def hbClaim (cd t : Nat) (ctl : CrossTableLookup F) : Nat :=
  let num_appearances := (ctl.looked_table :: ctl.looking_tables).countP
    (fun twc => decide (twc.table = t))
  if num_appearances > 1 then ceil_div_usize num_appearances (cd - 1) else 0

/-- What `num_ctl_helpers_zs_all` adds to the Z total for one lookup. -/
def zbClaim (t : Nat) (ctl : CrossTableLookup F) : Nat :=
  if (ctl.looked_table :: ctl.looking_tables).countP
      (fun twc => decide (twc.table = t)) > 0 then 1 else 0

theorem pushZData_length (d : Nat → List (CtlZData F)) (t : Nat) (zd : CtlZData F)
    (u : Nat) :
    ((pushZData d t zd) u).length = (d u).length + (if u = t then 1 else 0) := by
  unfold pushZData
  by_cases h : u = t
  · rw [if_pos h, if_pos h]
    simp
  · rw [if_neg h, if_neg h]
    omega

theorem pushZData_helperSum (d : Nat → List (CtlZData F)) (t : Nat) (zd : CtlZData F)
    (u : Nat) :
    helperSum ((pushZData d t zd) u)
      = helperSum (d u) + (if u = t then zd.helper_columns.length else 0) := by
  unfold pushZData helperSum
  by_cases h : u = t
  · rw [if_pos h, if_pos h]
    simp
  · rw [if_neg h, if_neg h]
    omega

theorem pushLooking_length (ctl : CrossTableLookup F) (challenge : GrandProductChallenge F)
    (d : Nat → List (CtlZData F)) (p : Nat × List (List F)) (u : Nat) :
    ((pushLooking ctl challenge d p) u).length
      = (d u).length + (if u = p.1 then 1 else 0) := by
  unfold pushLooking
  exact pushZData_length d p.1 _ u

theorem pushLooking_helperSum (ctl : CrossTableLookup F)
    (challenge : GrandProductChallenge F) (d : Nat → List (CtlZData F))
    (p : Nat × List (List F)) (u : Nat) :
    helperSum ((pushLooking ctl challenge d p) u)
      = helperSum (d u) + (if u = p.1 then p.2.length - 1 else 0) := by
  unfold pushLooking
  rw [pushZData_helperSum]
  congr 1
  by_cases h : u = p.1
  · rw [if_pos h, if_pos h]
    simp only [List.length_take]
    omega
  · rw [if_neg h, if_neg h]

theorem looking_fold_counts (traces : Nat → List (List F)) (ctl : CrossTableLookup F)
    (challenge : GrandProductChallenge F) (cd : Nat) (hcd : 2 ≤ cd) :
    ∀ (runs : List (Nat × List (TableWithColumns F))) (lst : List (Nat × List (List F))),
      omap (fun r =>
        (partial_sums (traces r.1) (r.2.map (fun tw => (tw.columns, tw.filter)))
          challenge cd).map (fun hz => (r.1, hz))) runs = some lst →
      ∀ (d : Nat → List (CtlZData F)) (t : Nat),
        ((lst.foldl (pushLooking ctl challenge) d) t).length
          = (d t).length + runs.countP (fun r => decide (r.1 = t)) ∧
        helperSum ((lst.foldl (pushLooking ctl challenge) d) t)
          = helperSum (d t) + (runs.map (fun r =>
              if r.1 = t then
                (if r.2.length > 1 then ceil_div_usize r.2.length (cd - 1) else 0)
              else 0)).sum := by
  intro runs
  induction runs with
  | nil =>
    intro lst h d t
    simp only [omap] at h
    cases h
    simp
  | cons r rest ih =>
    intro lst h d t
    simp only [omap] at h
    cases hps : partial_sums (traces r.1) (r.2.map (fun tw => (tw.columns, tw.filter)))
        challenge cd with
    | none => rw [hps, Option.map_none'] at h; exact absurd h (by simp)
    | some hz =>
      rw [hps, Option.map_some'] at h
      cases hrest : omap (fun r =>
          (partial_sums (traces r.1) (r.2.map (fun tw => (tw.columns, tw.filter)))
            challenge cd).map (fun hz => (r.1, hz))) rest with
      | none => rw [hrest] at h; exact absurd h (by simp)
      | some lst' =>
        rw [hrest] at h
        cases h
        simp only [List.foldl_cons, List.countP_cons, List.map_cons, List.sum_cons]
        obtain ⟨ihl, ihh⟩ := ih lst' hrest (pushLooking ctl challenge d (r.1, hz)) t
        have hlen : hz.length - 1
            = (if r.2.length > 1 then ceil_div_usize r.2.length (cd - 1) else 0) := by
          have := partial_sums_length hcd hps
          rw [List.length_map] at this
          by_cases hr2 : r.2.length > 1
          · rw [if_pos hr2] at this ⊢
            omega
          · rw [if_neg hr2] at this ⊢
            omega
        constructor
        · rw [ihl, pushLooking_length]
          dsimp only
          simp only [decide_eq_true_eq]
          split_ifs with h1 h2 <;> omega
        · rw [ihh, pushLooking_helperSum]
          dsimp only
          rw [← hlen]
          split_ifs with h1 h2 <;> omega

theorem ctlChallengeData_counts {traces : Nat → List (List F)}
    {ctl : CrossTableLookup F} {ch : GrandProductChallenge F} {cd : Nat}
    {d d' : Nat → List (CtlZData F)} (hcd : 2 ≤ cd)
    (h : ctlChallengeData traces ctl ch cd d = some d') (t : Nat) :
    (d' t).length = (d t).length + zsDelta ctl t ∧
    helperSum (d' t) = helperSum (d t) + helpersDelta cd ctl t := by
  unfold ctlChallengeData at h
  cases hzs : ctl_helper_zs_cols traces ctl.looking_tables ch cd with
  | none => rw [hzs] at h; exact absurd h (by simp)
  | some helper_zs_looking =>
    rw [hzs] at h
    dsimp only at h
    cases hlooked : partial_sums (traces ctl.looked_table.table)
        [(ctl.looked_table.columns, ctl.looked_table.filter)] ch cd with
    | none => rw [hlooked] at h; exact absurd h (by simp)
    | some z_looked =>
      rw [hlooked] at h
      dsimp only at h
      cases h
      obtain ⟨hl, hh⟩ := looking_fold_counts traces ctl ch cd hcd
        (runsBy (fun tw => tw.table) ctl.looking_tables) helper_zs_looking hzs d t
      constructor
      · rw [pushZData_length, hl]
        unfold zsDelta
        by_cases ht : t = ctl.looked_table.table
        · rw [if_pos ht, if_pos ht.symm]
          omega
        · rw [if_neg ht, if_neg (fun hx => ht hx.symm)]
          omega
      · rw [pushZData_helperSum, hh]
        unfold helpersDelta
        simp only [List.length_nil]
        by_cases ht : t = ctl.looked_table.table
        · rw [if_pos ht]
          omega
        · rw [if_neg ht]
          omega

theorem ctlAllChallenges_counts {traces : Nat → List (List F)}
    {ctl : CrossTableLookup F} {cd : Nat} (hcd : 2 ≤ cd) :
    ∀ (chs : List (GrandProductChallenge F)) (d d' : Nat → List (CtlZData F)),
      ctlAllChallenges traces ctl cd chs d = some d' → ∀ t,
      (d' t).length = (d t).length + chs.length * zsDelta ctl t ∧
      helperSum (d' t) = helperSum (d t) + chs.length * helpersDelta cd ctl t := by
  intro chs
  induction chs with
  | nil =>
    intro d d' h t
    simp only [ctlAllChallenges] at h
    cases h
    simp
  | cons ch rest ih =>
    intro d d' h t
    simp only [ctlAllChallenges] at h
    cases hc : ctlChallengeData traces ctl ch cd d with
    | none => rw [hc] at h; exact absurd h (by simp)
    | some d1 =>
      rw [hc] at h
      obtain ⟨hl1, hh1⟩ := ctlChallengeData_counts hcd hc t
      obtain ⟨hl2, hh2⟩ := ih d1 d' h t
      constructor
      · rw [hl2, hl1]
        simp only [List.length_cons]
        ring
      · rw [hh2, hh1]
        simp only [List.length_cons]
        ring

theorem ctlDataLoop_counts {traces : Nat → List (List F)}
    {chs : List (GrandProductChallenge F)} {cd : Nat} (hcd : 2 ≤ cd) :
    ∀ (ctls : List (CrossTableLookup F)) (d d' : Nat → List (CtlZData F)),
      ctlDataLoop traces chs cd ctls d = some d' → ∀ t,
      (d' t).length
        = (d t).length + (ctls.map (fun ctl => chs.length * zsDelta ctl t)).sum ∧
      helperSum (d' t)
        = helperSum (d t)
          + (ctls.map (fun ctl => chs.length * helpersDelta cd ctl t)).sum := by
  intro ctls
  induction ctls with
  | nil =>
    intro d d' h t
    simp only [ctlDataLoop] at h
    cases h
    simp
  | cons ctl rest ih =>
    intro d d' h t
    simp only [ctlDataLoop] at h
    cases hc : ctlAllChallenges traces ctl cd chs d with
    | none => rw [hc] at h; exact absurd h (by simp)
    | some d1 =>
      rw [hc] at h
      obtain ⟨hl1, hh1⟩ := ctlAllChallenges_counts hcd chs d d1 hc t
      obtain ⟨hl2, hh2⟩ := ih d1 d' h t
      simp only [List.map_cons, List.sum_cons]
      constructor
      · rw [hl2, hl1]
        ring
      · rw [hh2, hh1]
        ring

theorem numFold_spec (t cd : Nat) :
    ∀ (ctls : List (CrossTableLookup F)) (a b : Nat) (c : List Nat),
      (ctls.foldl (fun (acc : Nat × Nat × List Nat) ctl =>
        let num_appearances := (ctl.looked_table :: ctl.looking_tables).countP
          (fun twc => decide (twc.table = t))
        let hb := if num_appearances > 1 then
            ceil_div_usize num_appearances (cd - 1)
          else 0
        (acc.1 + hb, acc.2.1 + (if num_appearances > 0 then 1 else 0), acc.2.2 ++ [hb]))
        (a, b, c)).1
        = a + (ctls.map (hbClaim cd t)).sum ∧
      (ctls.foldl (fun (acc : Nat × Nat × List Nat) ctl =>
        let num_appearances := (ctl.looked_table :: ctl.looking_tables).countP
          (fun twc => decide (twc.table = t))
        let hb := if num_appearances > 1 then
            ceil_div_usize num_appearances (cd - 1)
          else 0
        (acc.1 + hb, acc.2.1 + (if num_appearances > 0 then 1 else 0), acc.2.2 ++ [hb]))
        (a, b, c)).2.1
        = b + (ctls.map (zbClaim t)).sum := by
  intro ctls
  induction ctls with
  | nil => intro a b c; simp
  | cons ctl rest ih =>
    intro a b c
    simp only [List.foldl_cons, List.map_cons, List.sum_cons]
    obtain ⟨ih1, ih2⟩ := ih (a + hbClaim cd t ctl) (b + zbClaim t ctl)
      (c ++ [hbClaim cd t ctl])
    constructor
    · show (List.foldl _
        (a + hbClaim cd t ctl, b + zbClaim t ctl, c ++ [hbClaim cd t ctl]) rest).1 = _
      rw [ih1]
      ring
    · show (List.foldl _
        (a + hbClaim cd t ctl, b + zbClaim t ctl, c ++ [hbClaim cd t ctl]) rest).2.1 = _
      rw [ih2]
      ring

theorem num_ctl_helpers_zs_all_eq (ctls : List (CrossTableLookup F))
    (t nc cd : Nat) :
    (num_ctl_helpers_zs_all ctls t nc cd).1 = (ctls.map (hbClaim cd t)).sum * nc ∧
    (num_ctl_helpers_zs_all ctls t nc cd).2.1 = (ctls.map (zbClaim t)).sum * nc := by
  unfold num_ctl_helpers_zs_all
  obtain ⟨h1, h2⟩ := numFold_spec t cd ctls 0 0 []
  dsimp only
  rw [h1, h2]
  constructor <;> simp

theorem runs_counts_zero {α : Type} (t : Nat) (g : Nat × List α → Nat)
    {rs : List (Nat × List α)}
    (h : rs.countP (fun r => decide (r.1 = t)) = 0) :
    (rs.map (fun r => if r.1 = t then g r else 0)).sum = 0 := by
  apply List.sum_eq_zero
  intro x hx
  obtain ⟨r, hr, rfl⟩ := List.mem_map.mp hx
  have := List.countP_eq_zero.mp h r hr
  simp only [decide_eq_true_eq] at this
  rw [if_neg this]

theorem runs_counts_single {α : Type} (t : Nat) (f : Nat → Nat) :
    ∀ (rs : List (Nat × List α)), (∀ r ∈ rs, r.2 ≠ []) →
      rs.countP (fun r => decide (r.1 = t)) = 1 →
      0 < (rs.map (fun r => if r.1 = t then r.2.length else 0)).sum ∧
      (rs.map (fun r => if r.1 = t then f r.2.length else 0)).sum
        = f ((rs.map (fun r => if r.1 = t then r.2.length else 0)).sum) := by
  intro rs
  induction rs with
  | nil => intro _ h; exact absurd h (by simp)
  | cons r rest ih =>
    intro hne h
    rw [List.countP_cons] at h
    simp only [List.map_cons, List.sum_cons]
    by_cases hr : r.1 = t
    · rw [if_pos (by simp [hr])] at h
      have hrest : rest.countP (fun r => decide (r.1 = t)) = 0 := by omega
      rw [if_pos hr, if_pos hr, runs_counts_zero t (fun r => r.2.length) hrest,
        runs_counts_zero t (fun r => f r.2.length) hrest]
      have hlen : 0 < r.2.length := List.length_pos.mpr (hne r (by simp))
      exact ⟨by omega, by rw [Nat.add_zero, Nat.add_zero]⟩
    · rw [if_neg (by simp [hr])] at h
      rw [if_neg hr, if_neg hr, Nat.zero_add, Nat.zero_add]
      exact ih (fun x hx => hne x (by simp [hx])) (by omega)

theorem claims_eq_deltas (ctl : CrossTableLookup F) (t cd : Nat)
    (hyp : (runsBy (fun tw => tw.table) ctl.looking_tables).countP
        (fun r => decide (r.1 = t))
      + (if ctl.looked_table.table = t then 1 else 0) ≤ 1) :
    hbClaim cd t ctl = helpersDelta cd ctl t ∧ zbClaim t ctl = zsDelta ctl t := by
  have hcount := runsBy_countP (fun tw => tw.table) t ctl.looking_tables
  have happ : (ctl.looked_table :: ctl.looking_tables).countP
        (fun twc => decide (twc.table = t))
      = ctl.looking_tables.countP (fun twc => decide (twc.table = t))
        + (if ctl.looked_table.table = t then 1 else 0) := by
    rw [List.countP_cons]
    congr 1
    by_cases hl : ctl.looked_table.table = t
    · rw [if_pos (by simp [hl]), if_pos hl]
    · rw [if_neg (by simp [hl]), if_neg hl]
  by_cases hl : ctl.looked_table.table = t
  · have hk0 : (runsBy (fun tw => tw.table) ctl.looking_tables).countP
        (fun r => decide (r.1 = t)) = 0 := by
      rw [if_pos hl] at hyp
      omega
    have ha : ctl.looking_tables.countP (fun twc => decide (twc.table = t)) = 0 := by
      rw [hcount]
      exact runs_counts_zero t (fun r => r.2.length) hk0
    have hdelta := runs_counts_zero t
      (fun r => if r.2.length > 1 then ceil_div_usize r.2.length (cd - 1) else 0) hk0
    unfold hbClaim zbClaim zsDelta helpersDelta
    dsimp only
    rw [happ, ha, hk0, if_pos hl, hdelta]
    norm_num
  · by_cases hk0 : (runsBy (fun tw => tw.table) ctl.looking_tables).countP
        (fun r => decide (r.1 = t)) = 0
    · have ha : ctl.looking_tables.countP (fun twc => decide (twc.table = t)) = 0 := by
        rw [hcount]
        exact runs_counts_zero t (fun r => r.2.length) hk0
      have hdelta := runs_counts_zero t
        (fun r => if r.2.length > 1 then ceil_div_usize r.2.length (cd - 1) else 0) hk0
      unfold hbClaim zbClaim zsDelta helpersDelta
      dsimp only
      rw [happ, ha, hk0, if_neg hl, hdelta]
      norm_num
    · have hk1 : (runsBy (fun tw => tw.table) ctl.looking_tables).countP
          (fun r => decide (r.1 = t)) = 1 := by
        rw [if_neg hl] at hyp
        omega
      have hruns := runsBy_runs (fun tw => tw.table) ctl.looking_tables
      obtain ⟨hpos, hfeq⟩ := runs_counts_single t
        (fun n => if n > 1 then ceil_div_usize n (cd - 1) else 0)
        (runsBy (fun tw => tw.table) ctl.looking_tables)
        (fun r hr => (hruns r hr).1) hk1
      unfold hbClaim zbClaim zsDelta helpersDelta
      dsimp only
      rw [happ, hcount, hk1, if_neg hl, Nat.add_zero, hfeq]
      refine ⟨rfl, ?_⟩
      rw [if_pos hpos]

theorem sum_map_mul_left (n : Nat) (l : List α) (f : α → Nat) :
    (l.map (fun x => n * f x)).sum = (l.map f).sum * n := by
  induction l with
  | nil => simp
  | cons a l ih =>
    simp only [List.map_cons, List.sum_cons, ih]
    ring

/-- C9 (amended): the helper and Z totals of `num_ctl_helpers_zs_all` match
what `cross_table_lookup_data` actually produces for a table, provided that
in every lookup the table's looking entries form at most one consecutive run
and the table is not simultaneously the looked table and a looking table —
the condition the in-repository lookups satisfy. (Without it the two
counting schemes disagree: see the counterexample, where a table that is
both looked and looking receives two Z polynomials and no helper columns
while `num_ctl_helpers_zs_all` reports one of each.) -/
theorem num_ctl_helpers_zs_all_matches_data (traces : Nat → List (List F))
    (ctls : List (CrossTableLookup F)) (chs : List (GrandProductChallenge F))
    (cd t : Nat) (data : Nat → List (CtlZData F)) (hcd : 2 ≤ cd)
    (hyp : ∀ ctl ∈ ctls, (runsBy (fun tw => tw.table) ctl.looking_tables).countP
        (fun r => decide (r.1 = t))
      + (if ctl.looked_table.table = t then 1 else 0) ≤ 1)
    (h : cross_table_lookup_data traces ctls chs cd = some data) :
    (num_ctl_helpers_zs_all ctls t chs.length cd).1 = helperSum (data t) ∧
    (num_ctl_helpers_zs_all ctls t chs.length cd).2.1 = (data t).length := by
  unfold cross_table_lookup_data at h
  obtain ⟨hl, hh⟩ := ctlDataLoop_counts hcd ctls (fun _ => []) data h t
  obtain ⟨hn1, hn2⟩ := num_ctl_helpers_zs_all_eq ctls t chs.length cd
  have hmap1 : ctls.map (hbClaim cd t) = ctls.map (fun ctl => helpersDelta cd ctl t) :=
    List.map_congr_left (fun ctl hc => (claims_eq_deltas ctl t cd (hyp ctl hc)).1)
  have hmap2 : ctls.map (zbClaim t) = ctls.map (fun ctl => zsDelta ctl t) :=
    List.map_congr_left (fun ctl hc => (claims_eq_deltas ctl t cd (hyp ctl hc)).2)
  constructor
  · rw [hn1, hmap1, hh,
      sum_map_mul_left chs.length ctls (fun ctl => helpersDelta cd ctl t)]
    simp [helperSum]
  · rw [hn2, hmap2, hl,
      sum_map_mul_left chs.length ctls (fun ctl => zsDelta ctl t)]
    simp

/-- Lookup satisfying the amended claim's hypothesis: table 0 looks into
table 1. -/
def ctl9w : CrossTableLookup (ZMod 5) :=
  ⟨[⟨0, [Column.single 0], some (Filter.new_simple (Column.single 0))⟩],
    ⟨1, [Column.single 0], some (Filter.new_simple (Column.single 0))⟩⟩

/-- The table data `cross_table_lookup_data` produces on the witness input. -/
def data9w : Nat → List (CtlZData (ZMod 5)) :=
  (cross_table_lookup_data (fun _ => [[0]]) [ctl9w] [exCh] 3).get (by decide)

theorem num_ctl_helpers_zs_all_matches_data_witness :
    2 ≤ 3 ∧
    (∀ ctl ∈ [ctl9w], (runsBy (fun tw => tw.table) ctl.looking_tables).countP
        (fun r => decide (r.1 = 0))
      + (if ctl.looked_table.table = 0 then 1 else 0) ≤ 1) ∧
    cross_table_lookup_data (fun _ => [[0]]) [ctl9w] [exCh] 3 = some data9w ∧
    ((num_ctl_helpers_zs_all [ctl9w] 0 ([exCh].length) 3).1 = helperSum (data9w 0) ∧
     (num_ctl_helpers_zs_all [ctl9w] 0 ([exCh].length) 3).2.1 = (data9w 0).length) := by
  have hsome : cross_table_lookup_data (fun _ => [[0]]) [ctl9w] [exCh] 3 = some data9w :=
    (Option.some_get (by decide)).symm
  exact ⟨by decide, by decide, hsome,
    num_ctl_helpers_zs_all_matches_data (fun _ => [[0]]) [ctl9w] [exCh] 3 0 data9w
      (by decide) (by decide) hsome⟩

end Zkm
